import Mathlib

/-!
Verification of the picoclaw RAG engine (`pkg/rag`) against its
natural-language specification.  The Go sources are shallowly embedded:
pure functions become Lean functions on `List Char` / `String` / `Nat` /
`Int` / `ℚ`, byte buffers become `List Nat` (each entry `< 256`), Go
`float64` scores are modelled by `ℚ` (exact arithmetic; the properties
proved here do not depend on rounding), and `float32` payload values are
modelled by their 32-bit patterns (`math.Float32bits` is a bijection).
Stateful code (store + comet provider) is modelled by explicit state
records and transition functions.
-/

namespace Picoclaw

/-! ## Basic character/string helpers (Go `strings` package, ASCII range)

`strings.ToLower` / `strings.EqualFold` are Unicode in Go; every string the
verified properties touch (doc types, confidentiality levels, tag/project
values, path components) is compared through these helpers, which we model
on the ASCII range (the only range exercised by the repository's data). -/

def asciiLowerChar (c : Char) : Char :=
  if 'A' ≤ c ∧ c ≤ 'Z' then Char.ofNat (c.toNat + 32) else c

/-- Model of Go `strings.ToLower` (ASCII range). -/
def toLowerStr (s : String) : String :=
  ⟨s.data.map asciiLowerChar⟩

/-- Model of Go `strings.EqualFold` (ASCII simple fold). -/
def eqFold (a b : String) : Bool :=
  toLowerStr a == toLowerStr b

/-- Go `unicode.IsSpace` / the set trimmed by `strings.TrimSpace`:
the Unicode White_Space property. -/
def goIsSpace (c : Char) : Bool :=
  c = '\t' ∨ c = '\n' ∨ c = (Char.ofNat 0x0B) ∨ c = (Char.ofNat 0x0C) ∨
  c = '\r' ∨ c = ' ' ∨ c = (Char.ofNat 0x85) ∨ c = (Char.ofNat 0xA0) ∨
  c = (Char.ofNat 0x1680) ∨ ((Char.ofNat 0x2000) ≤ c ∧ c ≤ (Char.ofNat 0x200A)) ∨
  c = (Char.ofNat 0x2028) ∨ c = (Char.ofNat 0x2029) ∨ c = (Char.ofNat 0x202F) ∨
  c = (Char.ofNat 0x205F) ∨ c = (Char.ofNat 0x3000)

/-- Drop trailing characters satisfying `p` (used to model the right half of
Go `strings.TrimSpace`). -/
def dropTrailing (p : Char → Bool) (l : List Char) : List Char :=
  (l.reverse.dropWhile p).reverse

/-- Model of Go `strings.TrimSpace` on a character list. -/
def trimSpaceL (l : List Char) : List Char :=
  dropTrailing goIsSpace (l.dropWhile goIsSpace)

/-- Model of Go `strings.TrimSpace`. -/
def trimSpaceStr (s : String) : String :=
  ⟨trimSpaceL s.data⟩

/-- Model of Go `strings.HasPrefix` (list-based so that proofs can evaluate it). -/
def strHasPre (s pre : String) : Bool :=
  pre.data.isPrefixOf s.data

/-- Model of Go `strings.HasSuffix` (list-based so that proofs can evaluate it). -/
def strHasSuf (s suf : String) : Bool :=
  suf.data.reverse.isPrefixOf s.data.reverse

/-! ## `classifyDocType` (service.go)

The source classifies the KB-relative slash-normalized path.  On the
platforms the path reaches this function it is already slash-normalized
(`filepath.ToSlash` was applied by the caller and is the identity on
`/`-separated paths), so the embedding applies only the lowercasing. -/

/-- Embedding of `classifyDocType` (service.go). -/
def classifyDocType (relPath : String) : String :=
  let p := toLowerStr relPath
  if strHasPre p "notes/" then "note"
  else if strHasPre p "papers/" then "paper"
  else if strHasPre p "templates/" then "template"
  else if strHasSuf p "policy.md" then "policy"
  else if strHasSuf p "glossary.md" then "glossary"
  else "note"

/-- The claim's reading of the doc-type table: `*/policy.md` and
`*/glossary.md` are treated as path patterns whose final component is
exactly `policy.md` / `glossary.md` (a longer filename that merely ends in
those letters is NOT matched).  Written from the spec's words, to be
compared against `classifyDocType`. -/
def claimDocType (relPath : String) : String :=
  let p := toLowerStr relPath
  if strHasPre p "notes/" then "note"
  else if strHasPre p "papers/" then "paper"
  else if strHasPre p "templates/" then "template"
  else if strHasSuf p "/policy.md" ∨ p = "policy.md" then "policy"
  else if strHasSuf p "/glossary.md" ∨ p = "glossary.md" then "glossary"
  else "note"

/-- The amended doc-type table: suffix semantics, exactly as the source
tests them (`strings.HasSuffix(relPath, "policy.md")`), written from the
amended claim's words. -/
def amendedDocType (relPath : String) : String :=
  let p := toLowerStr relPath
  if strHasPre p "notes/" then "note"
  else if strHasPre p "papers/" then "paper"
  else if strHasPre p "templates/" then "template"
  else if strHasSuf p "policy.md" then "policy"
  else if strHasSuf p "glossary.md" then "glossary"
  else "note"

/-! ## Candidate limit (service.go, `Search`)

`topK` and the candidate limit are Go `int`s; we embed them as `ℤ`. -/

/-- Embedding of the `topK` clamping in `Search` (service.go):
`topK := req.TopK; if topK <= 0 { topK = 20 }; if topK > 100 { topK = 100 }`. -/
def clampTopK (reqTopK : Int) : Int :=
  let t := if reqTopK ≤ 0 then 20 else reqTopK
  if t > 100 then 100 else t

/-- Embedding of the candidate-limit computation in `Search` (service.go):
starts from `profile.BM25TopN`, substitutes 200 when non-positive, raises to
`topK*4`, and caps at 2000. -/
def candidateLimit (bm25TopN topK : Int) : Int :=
  let c0 := if bm25TopN ≤ 0 then 200 else bm25TopN
  let c1 := if c0 < topK * 4 then topK * 4 else c0
  if c1 > 2000 then 2000 else c1

/-- The claim's formula: `max(profile.bm25_top_n, top_k × 4)` clamped to
`[200, 2000]`.  Written from the spec's words, to be compared with
`candidateLimit`. -/
def claimCandidateLimit (bm25TopN topK : Int) : Int :=
  min 2000 (max 200 (max bm25TopN (topK * 4)))

/-! ## Fixed profiles (profiles.go) -/

inductive SearchMode where
  | keywordOnly
  | semanticOnly
  | hybrid
  deriving DecidableEq, Repr

/-- Embedding of `FixedProfile` (types.go).  `BM25TopN`/`SemanticTopN` are Go
`int`s (embedded as `ℤ`); the float weights are embedded as `ℚ`;
`PerSourceCap` only ever holds the literals 3/4/5, embedded as `ℕ`. -/
structure FixedProfile where
  id : String
  defaultMode : SearchMode
  bm25TopN : Int
  semanticTopN : Int
  weightBM25 : ℚ
  weightCosine : ℚ
  weightFreshness : ℚ
  weightMetadataBoost : ℚ
  perSourceCap : Nat
  preferNotesPolicy : Bool
  deriving DecidableEq, Repr

/-- The `default_research` entry of `FixedProfiles` (profiles.go). -/
def defaultResearch : FixedProfile :=
  { id := "default_research", defaultMode := .hybrid,
    bm25TopN := 120, semanticTopN := 120,
    weightBM25 := 60/100, weightCosine := 35/100,
    weightFreshness := 5/100, weightMetadataBoost := 0,
    perSourceCap := 3, preferNotesPolicy := false }

/-- The `decisions_recent` entry of `FixedProfiles` (profiles.go). -/
def decisionsRecent : FixedProfile :=
  { id := "decisions_recent", defaultMode := .hybrid,
    bm25TopN := 150, semanticTopN := 80,
    weightBM25 := 65/100, weightCosine := 20/100,
    weightFreshness := 15/100, weightMetadataBoost := 10/100,
    perSourceCap := 4, preferNotesPolicy := true }

/-- The `templates_lookup` entry of `FixedProfiles` (profiles.go). -/
def templatesLookup : FixedProfile :=
  { id := "templates_lookup", defaultMode := .keywordOnly,
    bm25TopN := 200, semanticTopN := 0,
    weightBM25 := 90/100, weightCosine := 0,
    weightFreshness := 0, weightMetadataBoost := 10/100,
    perSourceCap := 5, preferNotesPolicy := false }

/-- Embedding of the `FixedProfiles()` map (profiles.go) as a lookup. -/
def FixedProfiles (id : String) : Option FixedProfile :=
  if id = "default_research" then some defaultResearch
  else if id = "decisions_recent" then some decisionsRecent
  else if id = "templates_lookup" then some templatesLookup
  else none

/-- Embedding of `ResolveProfile` (profiles.go). -/
def ResolveProfile (profileID defaultProfileID : String) : FixedProfile :=
  match FixedProfiles profileID with
  | some p => p
  | none =>
    match FixedProfiles defaultProfileID with
    | some p => p
    | none => defaultResearch

/-! ## Vector file (store.go): CRC32-C, `SaveVectors`, `LoadVectors`

Byte buffers are `List Nat` with entries `< 256`; `float32` payload values
are represented by their 32-bit patterns (Go converts with
`math.Float32bits` / `math.Float32frombits`, a bijection). -/

/-- One bit-step of the reflected CRC-32C (Castagnoli) computation, as
performed byte-wise by Go's `crc32.Checksum` with
`crc32.MakeTable(crc32.Castagnoli)`. -/
def crc32cStep (c : Nat) : Nat :=
  if c % 2 = 1 then (c / 2) ^^^ 0x82F63B78 else c / 2

/-- Fold one byte into a CRC-32C accumulator. -/
def crc32cByte (crc b : Nat) : Nat :=
  crc32cStep^[8] (crc ^^^ (b % 256))

/-- Model of Go `crc32.Checksum(data, crc32.MakeTable(crc32.Castagnoli))`. -/
def crc32c (data : List Nat) : Nat :=
  (data.foldl crc32cByte 0xFFFFFFFF) ^^^ 0xFFFFFFFF

/-- Little-endian 16-bit encoding (`binary.LittleEndian.PutUint16`). -/
def le16 (x : Nat) : List Nat :=
  [x % 256, x / 256 % 256]

/-- Little-endian 32-bit encoding (`binary.LittleEndian.PutUint32`). -/
def le32 (x : Nat) : List Nat :=
  [x % 256, x / 256 % 256, x / 65536 % 256, x / 16777216 % 256]

/-- Read the byte at `off` (the embedding only reads offsets that the
source has bounds-checked, so the 0 default is never observable). -/
def byteAt (data : List Nat) (off : Nat) : Nat :=
  data.getD off 0

/-- `binary.LittleEndian.Uint16(data[off:off+2])`. -/
def readLE16At (data : List Nat) (off : Nat) : Nat :=
  byteAt data off + 256 * byteAt data (off + 1)

/-- `binary.LittleEndian.Uint32(data[off:off+4])`. -/
def readLE32At (data : List Nat) (off : Nat) : Nat :=
  byteAt data off + 256 * byteAt data (off + 1) +
    65536 * byteAt data (off + 2) + 16777216 * byteAt data (off + 3)

/-- The bytes `SaveVectors` (store.go) assembles for a non-empty vector
list: magic `PCVF`, version 1 (LE16), two reserved zero bytes, count,
dims, the row-major payload, and the CRC32-C trailer over header+payload. -/
def SaveVectorsBytes (vectors : List (List Nat)) : List Nat :=
  let dims := (vectors.head?.getD []).length
  let header :=
    [0x50, 0x43, 0x56, 0x46] ++ le16 1 ++ [0, 0] ++
      le32 vectors.length ++ le32 dims
  let payload := (vectors.map (fun v => (v.map le32).flatten)).flatten
  header ++ payload ++ le32 (crc32c (header ++ payload))

/-- Embedding of `Store.SaveVectors` (store.go): the resulting on-disk
file, where `none` models an absent `vectors.bin` (the empty-input branch
deletes the file). -/
def SaveVectors (vectors : List (List Nat)) : Option (List Nat) :=
  if vectors = [] then none else some (SaveVectorsBytes vectors)

/-- The buffer `SaveVectors` allocates:
`make([]byte, vecHeaderSize+payloadSize+vecTrailerSize)` with
`payloadSize = len(vectors) * len(vectors[0]) * 4`. -/
def vecBufSize (vectors : List (List Nat)) : Nat :=
  16 + vectors.length * (vectors.head?.getD []).length * 4 + 4

/-- The sequence of payload writes `SaveVectors` issues: 4 bytes per
element, at a running offset that starts at 16 and advances by 4 for every
element of every vector (regardless of the declared dims). -/
def payloadWrites : Nat → List (List Nat) → List (Nat × Nat)
  | _, [] => []
  | off, v :: rest =>
    ((List.range v.length).map fun j => (off + 4 * j, 4)) ++
      payloadWrites (off + 4 * v.length) rest

/-- All `(offset, size)` buffer writes `SaveVectors` issues: the four header
stores, the payload stores, and the CRC trailer store at the final running
offset. -/
def SaveVectorsWrites (vectors : List (List Nat)) : List (Nat × Nat) :=
  [(0, 4), (4, 2), (8, 4), (12, 4)] ++ payloadWrites 16 vectors ++
    [(16 + 4 * (vectors.map List.length).sum, 4)]

/-- A write `(off, size)` stays inside a buffer of `size` bytes. -/
def writeInBounds (bufSize : Nat) (w : Nat × Nat) : Bool :=
  w.1 + w.2 ≤ bufSize

inductive VecFileError where
  | tooShort
  | badMagic
  | badVersion
  | truncated
  | checksumMismatch
  deriving DecidableEq, Repr

/-- Embedding of `Store.LoadVectors` (store.go).  `none` models an absent
`vectors.bin`; the source returns `nil, nil` in that case. -/
def LoadVectors (file : Option (List Nat)) : Except VecFileError (List (List Nat)) :=
  match file with
  | none => .ok []
  | some data =>
    if data.length < 16 + 4 then .error .tooShort
    else if ¬ (byteAt data 0 = 0x50 ∧ byteAt data 1 = 0x43 ∧
               byteAt data 2 = 0x56 ∧ byteAt data 3 = 0x46) then .error .badMagic
    else if readLE16At data 4 ≠ 1 then .error .badVersion
    else
      let n := readLE32At data 8
      let dims := readLE32At data 12
      if data.length < 16 + n * dims * 4 + 4 then .error .truncated
      else if readLE32At data (16 + n * dims * 4) ≠
          crc32c (data.take (16 + n * dims * 4)) then .error .checksumMismatch
      else .ok ((List.range n).map fun i =>
        (List.range dims).map fun j => readLE32At data (16 + 4 * (i * dims + j)))

/-- The checks `LoadVectors` actually performs, written from the amended
claim's words: minimum size, magic, version 1, length AT LEAST the declared
extent (extra trailing bytes are accepted), and CRC over the declared
extent. -/
def wellFormedVec (data : List Nat) : Bool :=
  decide (16 + 4 ≤ data.length) &&
  decide (byteAt data 0 = 0x50 ∧ byteAt data 1 = 0x43 ∧
          byteAt data 2 = 0x56 ∧ byteAt data 3 = 0x46) &&
  decide (readLE16At data 4 = 1) &&
  decide (16 + readLE32At data 8 * readLE32At data 12 * 4 + 4 ≤ data.length) &&
  decide (readLE32At data (16 + readLE32At data 8 * readLE32At data 12 * 4) =
          crc32c (data.take (16 + readLE32At data 8 * readLE32At data 12 * 4)))

/-! ## C4: vector-file load validation -/

/-- C4 counterexample.  Two parts of the claim fail on the code:
(a) an absent `vectors.bin` does not fail with not-built — `LoadVectors`
returns success with no vectors (`nil, nil` in the source); (b) the length
check is `len(data) < expected` only, so a file longer than the declared
`16 + N·D·4 + 4` bytes (here a valid 24-byte one-vector file with one junk
byte appended, 25 bytes) still loads successfully. -/
theorem load_vectors_counterexample :
    LoadVectors none = .ok [] ∧
    (SaveVectorsBytes [[5]] ++ [0]).length = 25 ∧
    (16 + readLE32At (SaveVectorsBytes [[5]] ++ [0]) 8 *
        readLE32At (SaveVectorsBytes [[5]] ++ [0]) 12 * 4 + 4 = 24) ∧
    LoadVectors (some (SaveVectorsBytes [[5]] ++ [0])) = .ok [[5]] := by
  set_option maxRecDepth 40000 in
  exact ⟨rfl, rfl, rfl, rfl⟩

/-- C4 (amended): `LoadVectors` validates the magic bytes, the format
version (= 1), that the byte length is AT LEAST `16 + N·D·4 + 4` (a
shorter file is rejected, a longer one is accepted with trailing bytes
ignored), and the CRC32-C trailer over the declared extent, failing on any
of those mismatches; an absent file yields success with an empty vector
list (not a not-built error). -/
theorem load_vectors_amended :
    LoadVectors none = .ok [] ∧
    ∀ data : List Nat, (LoadVectors (some data)).isOk = wellFormedVec data := by
  refine ⟨rfl, fun data => ?_⟩
  simp only [LoadVectors, wellFormedVec]
  split_ifs with h1 h2 h3 h4 h5 <;>
    simp_all [Except.isOk, Except.toBool]

/-! ## C10: `SaveVectors` write bounds -/

theorem payloadWrites_bound (vs : List (List Nat)) :
    ∀ off : Nat, ∀ w ∈ payloadWrites off vs,
      w.1 + w.2 ≤ off + 4 * (vs.map List.length).sum := by
  induction vs with
  | nil => intro off w hw; simp [payloadWrites] at hw
  | cons v rest ih =>
    intro off w hw
    simp only [payloadWrites, List.mem_append, List.mem_map,
      List.mem_range] at hw
    rcases hw with ⟨j, hj, rfl⟩ | hw
    · simp only [List.map_cons, List.sum_cons]
      omega
    · have := ih (off + 4 * v.length) w hw
      simp only [List.map_cons, List.sum_cons]
      omega

theorem sum_map_length_uniform (vs : List (List Nat)) (d : Nat)
    (h : ∀ v ∈ vs, v.length = d) :
    (vs.map List.length).sum = vs.length * d := by
  induction vs with
  | nil => simp
  | cons v rest ih =>
    have hv : v.length = d := h v (by simp)
    have := ih (fun w hw => h w (by simp [hw]))
    simp only [List.map_cons, List.sum_cons, List.length_cons]
    rw [Nat.succ_mul]
    omega

/-- C10: for every non-empty vector list whose vectors all have the length
of the first vector, every buffer write of `SaveVectors` is in bounds, and
the written header declares `count = len(vectors)` and
`dims = len(vectors[0])`; the function performs no validation of the
uniform-length precondition — on the non-uniform input `[[0],[0,0]]` it
issues a write past the end of its buffer (a Go slice-bounds panic). -/
theorem save_vectors_in_bounds (vs : List (List Nat))
    (_hne : vs ≠ [])
    (huni : ∀ v ∈ vs, v.length = (vs.head?.getD []).length) :
    (∀ w ∈ SaveVectorsWrites vs, writeInBounds (vecBufSize vs) w = true) ∧
    (vs.length < 2 ^ 32 → readLE32At (SaveVectorsBytes vs) 8 = vs.length) ∧
    ((vs.head?.getD []).length < 2 ^ 32 →
      readLE32At (SaveVectorsBytes vs) 12 = (vs.head?.getD []).length) ∧
    (∃ w ∈ SaveVectorsWrites [[0], [0, 0]],
      writeInBounds (vecBufSize [[0], [0, 0]]) w = false) := by
  have hsum : (vs.map List.length).sum = vs.length * (vs.head?.getD []).length :=
    sum_map_length_uniform vs _ huni
  refine ⟨?_, ?_, ?_, ?_⟩
  · intro w hw
    simp only [writeInBounds, vecBufSize, decide_eq_true_eq]
    simp only [SaveVectorsWrites] at hw
    rcases List.mem_append.mp hw with h1 | htr
    · rcases List.mem_append.mp h1 with hhdr | hpw
      · simp only [List.mem_cons, List.not_mem_nil, or_false] at hhdr
        rcases hhdr with rfl | rfl | rfl | rfl <;> simp <;> omega
      · have := payloadWrites_bound vs 16 w hpw
        omega
    · simp only [List.mem_singleton] at htr
      subst htr
      simp only []
      omega
  · intro hlt
    have : readLE32At (SaveVectorsBytes vs) 8 = vs.length % 2 ^ 32 := by
      show vs.length % 256 + 256 * (vs.length / 256 % 256) +
        65536 * (vs.length / 65536 % 256) +
        16777216 * (vs.length / 16777216 % 256) = vs.length % 2 ^ 32
      omega
    omega
  · intro hlt
    have : readLE32At (SaveVectorsBytes vs) 12 =
        (vs.head?.getD []).length % 2 ^ 32 := by
      show (vs.head?.getD []).length % 256 +
        256 * ((vs.head?.getD []).length / 256 % 256) +
        65536 * ((vs.head?.getD []).length / 65536 % 256) +
        16777216 * ((vs.head?.getD []).length / 16777216 % 256) =
        (vs.head?.getD []).length % 2 ^ 32
      omega
    omega
  · refine ⟨(28, 4), ?_, ?_⟩
    · decide
    · decide

/-- C10 witness: apply the theorem to a concrete uniform two-vector list. -/
theorem save_vectors_in_bounds_witness :
    (∀ w ∈ SaveVectorsWrites [[1, 2], [3, 4]],
      writeInBounds (vecBufSize [[1, 2], [3, 4]]) w = true) ∧
    readLE32At (SaveVectorsBytes [[1, 2], [3, 4]]) 8 = 2 ∧
    readLE32At (SaveVectorsBytes [[1, 2], [3, 4]]) 12 = 2 := by
  have h := save_vectors_in_bounds [[1, 2], [3, 4]] (by decide) (by decide)
  exact ⟨h.1, by simpa using h.2.1 (by decide), by simpa using h.2.2.1 (by decide)⟩

/-! ## Data model (types.go) -/

structure ChunkLoc where
  headingPath : String
  startByte : Int
  endByte : Int
  deriving DecidableEq, Repr

/-- Embedding of `IndexedChunk` (types.go); `RiskScore` (`float64`) is
embedded as `ℚ`. -/
structure IndexedChunk where
  sourcePath : String
  chunkOrdinal : Int
  chunkLoc : ChunkLoc
  documentVersion : String
  paragraphID : String
  title : String
  date : String
  project : String
  tags : List String
  confidentiality : String
  docType : String
  text : String
  snippet : String
  flags : List String
  riskScore : ℚ
  deriving DecidableEq, Repr

/-- Embedding of `IndexInfo` (types.go). -/
structure IndexInfo where
  indexVersion : String
  indexState : String
  indexProvider : String
  builtAt : String
  embeddingModelID : String
  chunkingHash : String
  warnings : List String
  totalDocuments : Int
  totalChunks : Int
  deriving DecidableEq, Repr

structure ChunkRef where
  sourcePath : String
  chunkOrdinal : Int
  deriving DecidableEq, Repr

structure ScoreBreakdown where
  bm25Norm : ℚ
  cosineNorm : ℚ
  freshnessNorm : ℚ
  metadataBoost : ℚ
  finalScore : ℚ
  deriving DecidableEq, Repr, Inhabited

structure EvidenceItemFull where
  sourcePath : String
  chunkRef : ChunkRef
  chunkLoc : ChunkLoc
  documentVersion : String
  title : String
  date : String
  snippet : String
  score : ℚ
  scoreBreakdown : ScoreBreakdown
  flags : List String
  deriving DecidableEq, Repr

structure SearchFilters where
  tags : List String
  tagMode : String
  project : List String
  docType : List String
  dateFrom : String
  dateTo : String
  confidentialityAllow : List String
  allowRestricted : Bool
  deriving DecidableEq, Repr

/-- Embedding of `ProviderHit` (provider.go); the service's `Search` also
reads a `FusedScore` component (zero for the in-repo providers, which only
fill the lexical/semantic components). -/
structure ProviderHit where
  chunk : IndexedChunk
  lexicalScore : ℚ
  semanticScore : ℚ
  fusedScore : ℚ
  deriving DecidableEq, Repr

/-! ## C2: store + comet provider state machine (store.go, provider_comet.go)

The persistent `StoreState` stands for the on-disk artifacts (the bbolt
`meta`/`chunks` buckets and `vectors.bin`); every store operation fsyncs
before returning in the source, so a crash/restart preserves exactly this
record.  A fresh process is modelled by pairing the persistent record with
`freshCometProvider` (the zero value `newCometProvider` produces).  The
embedder is modelled as an optional total embedding function (a failing
embed call aborts `BuildInMemory`/`Build` before any dirty-flag change, so
only the successful path is represented, which is what the claim is
about). -/

structure StoreState where
  dirty : Bool
  info : Option IndexInfo
  chunks : List IndexedChunk
  vectorsFile : Option (List Nat)
  deriving Repr

/-- Embedding of `Store.SetDirty` (store.go). -/
def SetDirty (d : Bool) (st : StoreState) : StoreState :=
  { st with dirty := d }

/-- Embedding of `Store.IsDirty` (store.go): true iff the marker byte is
present. -/
def IsDirty (st : StoreState) : Bool :=
  st.dirty

/-- Embedding of `Store.SaveIndex` (store.go): one transaction replacing
`meta/info` and the whole `chunks` bucket. -/
def SaveIndex (info : IndexInfo) (chunks : List IndexedChunk)
    (st : StoreState) : StoreState :=
  { st with info := some info, chunks := chunks }

/-- In-memory state of the comet provider (provider_comet.go).  The comet
library's BM25/flat indexes are external dependencies and are tracked only
by presence. -/
structure CometProviderState where
  chunks : Option (List IndexedChunk)
  vectors : Option (List (List Nat))
  info : Option IndexInfo
  txtIdxBuilt : Bool
  vecIdxBuilt : Bool
  hasVecs : Bool
  vecDims : Int
  dirty : Bool
  indexReady : Bool
  deriving Repr

/-- The zero-value provider a fresh process starts with
(`newCometProvider`). -/
def freshCometProvider : CometProviderState :=
  { chunks := none, vectors := none, info := none, txtIdxBuilt := false,
    vecIdxBuilt := false, hasVecs := false, vecDims := 0, dirty := false,
    indexReady := false }

/-- An embedder: `none` models a nil embedder (keyword-only), `some (f, d)`
a configured embedder with embedding function `f` (vectors as 32-bit word
lists) and `Dims() = d`. -/
abbrev EmbedderModel := Option ((String → List Nat) × Int)

/-- Embedding of `buildVectorCache` (provider_comet.go): a
`ParagraphID → vector` map from the in-memory state if resident, else from
the store contents. -/
def buildVectorCache (p : CometProviderState) (st : StoreState)
    (pid : String) : Option (List Nat) :=
  match p.chunks, p.vectors with
  | some cs, some vs =>
    if cs.length = vs.length then
      ((cs.zip vs).find? fun cv => cv.1.paragraphID = pid ∧ pid ≠ "").map (·.2)
    else fromStore pid
  | _, _ => fromStore pid
where
  fromStore (pid : String) : Option (List Nat) :=
    match LoadVectors st.vectorsFile with
    | .error _ => none
    | .ok vs =>
      if st.chunks.length = 0 ∨ vs.length ≠ st.chunks.length then none
      else ((st.chunks.zip vs).find? fun cv =>
        cv.1.paragraphID = pid ∧ pid ≠ "").map (·.2)

/-- Embedding of `embedAndBuild` (provider_comet.go): installs the info,
computes vectors (reusing cached ones by paragraph id), rebuilds the
in-memory indexes and marks the provider ready.  Does not touch the dirty
flag or the store. -/
def embedAndBuild (em : EmbedderModel) (p : CometProviderState)
    (st : StoreState) (chunks : List IndexedChunk) (info : IndexInfo) :
    CometProviderState :=
  let base := { p with info := some info, indexReady := false, hasVecs := false }
  match em with
  | some (f, d) =>
    if chunks ≠ [] then
      let allVecs := chunks.map fun c =>
        (buildVectorCache p st c.paragraphID).getD (f c.text)
      let p1 := { base with vectors := some allVecs, vecDims := d,
                            hasVecs := true, chunks := some chunks,
                            txtIdxBuilt := true,
                            vecIdxBuilt := allVecs.length > 0 ∧ d > 0 }
      { p1 with indexReady := true }
    else
      { base with vectors := none, chunks := some chunks,
                  txtIdxBuilt := true, vecIdxBuilt := false,
                  indexReady := true }
  | none =>
    { base with vectors := none, chunks := some chunks,
                txtIdxBuilt := true, vecIdxBuilt := false,
                indexReady := true }

/-- Embedding of `BuildInMemory` (provider_comet.go): rebuild in memory,
set the in-memory dirty mirror, and persist the dirty marker
(`store.SetDirty(true)`, which fsyncs). -/
def BuildInMemory (em : EmbedderModel) (p : CometProviderState)
    (st : StoreState) (chunks : List IndexedChunk) (info : IndexInfo) :
    CometProviderState × StoreState :=
  let p1 := embedAndBuild em p st chunks info
  ({ p1 with dirty := true }, SetDirty true st)

/-- Embedding of `flushLocked` (provider_comet.go): no-op without info,
else `SaveIndex`, `SaveVectors`, `SetDirty(false)`. -/
def flushLocked (p : CometProviderState) (st : StoreState) :
    CometProviderState × StoreState :=
  match p.info with
  | none => (p, st)
  | some info =>
    let st1 := SaveIndex info (p.chunks.getD []) st
    let st2 := { st1 with vectorsFile := SaveVectors (p.vectors.getD []) }
    ({ p with dirty := false }, SetDirty false st2)

/-- Embedding of `Flush` (provider_comet.go): flush, then release the
in-memory chunk/vector buffers. -/
def Flush (p : CometProviderState) (st : StoreState) :
    CometProviderState × StoreState :=
  let r := flushLocked p st
  ({ r.1 with chunks := none, vectors := none }, r.2)

/-- Embedding of `Build` (provider_comet.go): one-shot rebuild + flush +
buffer release. -/
def Build (em : EmbedderModel) (p : CometProviderState) (st : StoreState)
    (chunks : List IndexedChunk) (info : IndexInfo) :
    CometProviderState × StoreState :=
  let p1 := embedAndBuild em p st chunks info
  let r := flushLocked p1 st
  ({ r.1 with chunks := none, vectors := none }, r.2)

inductive RagError where
  | dirtyIndex
  | vecCorrupt (e : VecFileError)
  | dimMismatch
  deriving DecidableEq, Repr

/-- Embedding of `ensureLoaded` (provider_comet.go): the slow path every
provider `Search`/`FetchChunk` takes when the index is not resident.  If
the persistent dirty marker is set it fails with `ErrDirtyIndex`; a missing
`IndexInfo` (`ErrIndexNotBuilt`) leaves the provider unloaded; otherwise
the BM25 index is streamed from the store, the vectors are streamed (and
validated) from `vectors.bin`, and the embedder dimensionality is checked. -/
def ensureLoaded (em : EmbedderModel) (p : CometProviderState)
    (st : StoreState) : Except RagError CometProviderState :=
  if p.indexReady then .ok p
  else if IsDirty st then .error .dirtyIndex
  else
    match st.info with
    | none => .ok p
    | some info =>
      let p1 := { p with info := some info }
      if info.totalChunks = 0 then .ok p1
      else
        match LoadVectors st.vectorsFile with
        | .error e => .error (.vecCorrupt e)
        | .ok vecs =>
          let chunkCount := st.chunks.length
          let p2 := { p1 with txtIdxBuilt := true }
          let hasVecs := decide (vecs ≠ []) && decide (vecs.length = chunkCount)
          let vecDims := (vecs.head?.getD []).length
          let dimBad : Bool := match em with
            | some (_, d) => decide (d > 0) && decide ((vecDims : Int) ≠ d)
            | none => false
          if hasVecs && dimBad then .error .dimMismatch
          else .ok { p2 with hasVecs := hasVecs, vecDims := vecDims,
                             vecIdxBuilt := hasVecs, indexReady := true }

theorem embedAndBuild_info (em : EmbedderModel) (p : CometProviderState)
    (st : StoreState) (chunks : List IndexedChunk) (info : IndexInfo) :
    (embedAndBuild em p st chunks info).info = some info := by
  unfold embedAndBuild
  match em with
  | some (f, d) =>
    by_cases h : chunks = [] <;> simp [h]
  | none => rfl

/-! ## C2: dirty-flag durability -/

/-- C2: after any successful `BuildInMemory` the persistent dirty marker is
set (it was written with `store.SetDirty(true)`, which fsyncs, so it is
exactly what a fresh process reopening the store observes); a fresh
process's provider (`freshCometProvider`, whose index is not resident and
therefore must load from disk) fails `ensureLoaded` — the first step of
every provider `Search` — with the dirty-index error, whatever embedder it
is configured with; a successful `Flush` of the built state clears the
marker, as does a full `Build`. -/
theorem dirty_flag_durability (em em' : EmbedderModel)
    (p : CometProviderState) (st : StoreState)
    (chunks : List IndexedChunk) (info : IndexInfo) :
    IsDirty (BuildInMemory em p st chunks info).2 = true ∧
    ensureLoaded em' freshCometProvider (BuildInMemory em p st chunks info).2 =
      .error .dirtyIndex ∧
    IsDirty (Flush (BuildInMemory em p st chunks info).1
      (BuildInMemory em p st chunks info).2).2 = false ∧
    IsDirty (Build em p st chunks info).2 = false := by
  refine ⟨rfl, ?_, ?_, ?_⟩
  · simp [ensureLoaded, freshCometProvider, BuildInMemory, SetDirty, IsDirty]
  · have h := embedAndBuild_info em p st chunks info
    simp only [BuildInMemory, Flush, flushLocked]
    rw [h]
    rfl
  · have h := embedAndBuild_info em p st chunks info
    simp only [Build, flushLocked]
    rw [h]
    rfl

/-! ## Search pipeline (service.go, `Search` steps 7–16)

Two aspects are parametrised rather than re-implemented:
`pd : String → Option ℤ` models `parseISODate` composed with Go's `time`
instant ordering (`t.Before u ↔ pd t < pd u`), and `fresh : String → ℚ`
models `freshnessNorm(date, refTime)` for the pinned reference time (its
only input that varies per candidate is the chunk date).  Every property
proved below holds for all such functions, hence for the concrete Go
ones. -/

/-- Embedding of `validateFilters` (service.go): `true` iff the filters are
accepted. -/
def validateFilters (f : SearchFilters) : Bool :=
  !(!f.allowRestricted && f.confidentialityAllow.any fun c => eqFold c "restricted")

/-- Embedding of `containsTag` (service.go). -/
def containsTag (tags : List String) (value : String) : Bool :=
  let v := toLowerStr (trimSpaceStr value)
  tags.any fun t => toLowerStr (trimSpaceStr t) == v

/-- The tail of `passesFilters` (service.go) after its leading restricted
gate: confidentiality-allow membership, doc-type, project, tags under
tag-mode, and the date range.  Factored out verbatim so that the restricted
gate can be reasoned about in isolation. -/
def passesOtherFilters (pd : String → Option Int) (chunk : IndexedChunk)
    (f : SearchFilters) : Bool :=
  if !f.confidentialityAllow.isEmpty &&
      !(f.confidentialityAllow.any fun c =>
        eqFold (trimSpaceStr c) chunk.confidentiality) then false
  else if !f.docType.isEmpty &&
      !(f.docType.any fun d => eqFold (trimSpaceStr d) chunk.docType) then false
  else if !f.project.isEmpty &&
      !(f.project.any fun pr => eqFold (trimSpaceStr pr) chunk.project) then false
  else if !f.tags.isEmpty &&
      !(if eqFold f.tagMode "all" then f.tags.all fun t => containsTag chunk.tags t
        else f.tags.any fun t => containsTag chunk.tags t) then false
  else if f.dateFrom ≠ "" ∨ f.dateTo ≠ "" then
    match pd chunk.date with
    | none => false
    | some t =>
      if f.dateFrom != "" && (match pd f.dateFrom with
          | some fr => decide (t < fr)
          | none => false) then false
      else if f.dateTo != "" && (match pd f.dateTo with
          | some upTo => decide (upTo < t)
          | none => false) then false
      else true
  else true

/-- Embedding of `passesFilters` (service.go): the restricted gate followed
by the remaining checks. -/
def passesFilters (pd : String → Option Int) (chunk : IndexedChunk)
    (f : SearchFilters) : Bool :=
  if !f.allowRestricted && eqFold chunk.confidentiality "restricted" then false
  else passesOtherFilters pd chunk f

/-- Embedding of `metadataBoost` (service.go). -/
def metadataBoost (profile : FixedProfile) (chunk : IndexedChunk) : ℚ :=
  (if profile.preferNotesPolicy ∧ (chunk.docType = "note" ∨ chunk.docType = "policy")
    then 1 else 0) +
  (if profile.id = "templates_lookup" ∧ chunk.docType = "template" then 1 else 0)

/-- The candidate record built in `Search` (service.go). -/
structure Cand where
  chunk : IndexedChunk
  rawBM25 : ℚ
  rawCosine : ℚ
  rawFused : ℚ
  freshNorm : ℚ
  metaBoost : ℚ
  score : ℚ
  breakdown : ScoreBreakdown
  deriving DecidableEq, Repr

/-- Candidate collection (`Search` steps 7–8): keep hits that pass the
filters and have at least one positive score component. -/
def mkCands (pd : String → Option Int) (fresh : String → ℚ)
    (profile : FixedProfile) (f : SearchFilters) (hits : List ProviderHit) :
    List Cand :=
  (hits.filter fun h =>
    passesFilters pd h.chunk f &&
    !(decide (h.lexicalScore ≤ 0) && decide (h.semanticScore ≤ 0) &&
      decide (h.fusedScore ≤ 0))).map fun h =>
    { chunk := h.chunk, rawBM25 := h.lexicalScore,
      rawCosine := h.semanticScore, rawFused := h.fusedScore,
      freshNorm := fresh h.chunk.date,
      metaBoost := metadataBoost profile h.chunk,
      score := 0, breakdown := default }

/-- `hasFused := len(cands) > 0 && cands[0].RawFused > 0` (`Search`,
service.go) — read off the candidate list in provider order. -/
def hasFusedOf (cands : List Cand) : Bool :=
  match cands with
  | [] => false
  | c :: _ => decide (0 < c.rawFused)

/-- The three-component comparator shared by both `sort.SliceStable` calls
in `Search` (service.go): primary score descending, then source path
ascending, then chunk ordinal ascending. -/
def tripleLess (a b : ℚ × String × Int) : Bool :=
  if a.1 = b.1 then
    if a.2.1 = b.2.1 then decide (a.2.2 < b.2.2)
    else decide (a.2.1 < b.2.1)
  else decide (a.1 > b.1)

/-- The first sort's key (`Search` step 14): fused score when the provider
pre-fused, BM25 otherwise. -/
def primTriple (hasFused : Bool) (c : Cand) : ℚ × String × Int :=
  (if hasFused then c.rawFused else c.rawBM25,
    c.chunk.sourcePath, c.chunk.chunkOrdinal)

/-- The final sort's key (`Search` step 15): the weighted final score. -/
def finalTriple (c : Cand) : ℚ × String × Int :=
  (c.score, c.chunk.sourcePath, c.chunk.chunkOrdinal)

/-- `topN := profile.BM25TopN; if topN <= 0 || topN > len(cands) { topN =
len(cands) }` (`Search`, service.go). -/
def effTopN (bm25TopN : Int) (n : Nat) : Nat :=
  if bm25TopN ≤ 0 ∨ (n : Int) < bm25TopN then n else bm25TopN.toNat

/-- Score normalization and weighting (`Search` steps 9–13) over the
trimmed candidate list; the min/max fold starts from `cands[0]` exactly as
the source does (the function is only applied to non-empty lists). -/
def scoreCands (hasFused : Bool) (mode : SearchMode) (semAvail : Bool)
    (profile : FixedProfile) (cands : List Cand) : List Cand :=
  match cands with
  | [] => []
  | c0 :: _ =>
    let minBM := cands.foldl (fun m c => min m c.rawBM25) c0.rawBM25
    let maxBM := cands.foldl (fun m c => max m c.rawBM25) c0.rawBM25
    let minCos := cands.foldl (fun m c => min m c.rawCosine) c0.rawCosine
    let maxCos := cands.foldl (fun m c => max m c.rawCosine) c0.rawCosine
    let minFused := cands.foldl (fun m c => min m c.rawFused) c0.rawFused
    let maxFused := cands.foldl (fun m c => max m c.rawFused) c0.rawFused
    cands.map fun c =>
      let bmNorm : ℚ :=
        if hasFused then
          if maxFused > minFused then (c.rawFused - minFused) / (maxFused - minFused) else 1
        else
          let bm0 : ℚ :=
            if maxBM > minBM then (c.rawBM25 - minBM) / (maxBM - minBM) else 1
          if mode = .semanticOnly then 0 else bm0
      let cosNorm : ℚ :=
        if hasFused then
          if maxFused > minFused then (c.rawFused - minFused) / (maxFused - minFused) else 1
        else
          let cos0 : ℚ :=
            if semAvail ∧ mode ≠ .keywordOnly then
              if maxCos > minCos then (c.rawCosine - minCos) / (maxCos - minCos) else 1
            else 0
          if mode = .keywordOnly then 0 else cos0
      let final0 := profile.weightBM25 * bmNorm + profile.weightCosine * cosNorm +
        profile.weightFreshness * c.freshNorm +
        profile.weightMetadataBoost * c.metaBoost
      let final1 := if final0 < 0 then 0 else final0
      let penalty0 := 1 - (1 / 5 : ℚ) * c.chunk.riskScore
      let penalty := if penalty0 < 1 / 2 then 1 / 2 else penalty0
      let final := final1 * penalty
      { c with score := final,
               breakdown := { bm25Norm := bmNorm, cosineNorm := cosNorm,
                              freshnessNorm := c.freshNorm,
                              metadataBoost := c.metaBoost,
                              finalScore := final } }

/-- The per-source-cap admission walk (`Search` step 16): admit candidates
in order, skipping one whose source already reached the cap, until `topK`
admitted. -/
def capWalk (cap topK : Nat) : List Cand → (String → Nat) → Nat → List Cand
  | [], _, _ => []
  | c :: rest, counts, taken =>
    if topK ≤ taken then []
    else if cap ≤ counts c.chunk.sourcePath then capWalk cap topK rest counts taken
    else c :: capWalk cap topK rest
      (fun s => if s = c.chunk.sourcePath then counts s + 1 else counts s)
      (taken + 1)

/-- `Search` steps 7–16 (service.go): filter, drop zero-score candidates,
stable-sort by primary score (Go's `sort.SliceStable` and `mergeSort` with
the negated flipped comparator compute the same stable order), trim to
`bm25_top_n`, normalize and weight, final stable sort, per-source-cap walk.
Returns the admitted candidate records in final order. -/
def rankedCands (pd : String → Option Int) (fresh : String → ℚ)
    (profile : FixedProfile) (mode : SearchMode) (semAvail : Bool)
    (f : SearchFilters) (topK : Nat) (hits : List ProviderHit) : List Cand :=
  let cands := mkCands pd fresh profile f hits
  if cands.isEmpty then []
  else
    let hF := hasFusedOf cands
    let sorted1 := cands.mergeSort fun a b =>
      !(tripleLess (primTriple hF b) (primTriple hF a))
    let trimmed := sorted1.take (effTopN profile.bm25TopN cands.length)
    let scored := scoreCands hF mode semAvail profile trimmed
    let sorted2 := scored.mergeSort fun a b =>
      !(tripleLess (finalTriple b) (finalTriple a))
    capWalk profile.perSourceCap topK sorted2 (fun _ => 0) 0

/-- Item assembly (`Search` step 18, service.go). -/
def toEvidenceItem (c : Cand) : EvidenceItemFull :=
  { sourcePath := c.chunk.sourcePath,
    chunkRef := { sourcePath := c.chunk.sourcePath,
                  chunkOrdinal := c.chunk.chunkOrdinal },
    chunkLoc := c.chunk.chunkLoc,
    documentVersion := c.chunk.documentVersion,
    title := c.chunk.title, date := c.chunk.date,
    snippet := c.chunk.snippet, score := c.score,
    scoreBreakdown := c.breakdown, flags := c.chunk.flags }

/-- The `EvidencePackFull.items` list produced by `Search` (service.go). -/
def evidenceItems (pd : String → Option Int) (fresh : String → ℚ)
    (profile : FixedProfile) (mode : SearchMode) (semAvail : Bool)
    (f : SearchFilters) (topK : Nat) (hits : List ProviderHit) :
    List EvidenceItemFull :=
  (rankedCands pd fresh profile mode semAvail f topK hits).map toEvidenceItem

/-! ## Ordering machinery for the two stable sorts -/

/-- The comparator triples, packed into a lexicographic order (score
negated so that "primary descending, then source ascending, then ordinal
ascending" is plain `<`). -/
def keyOfTriple (t : ℚ × String × Int) : Lex (ℚ × Lex (String × Int)) :=
  toLex (-t.1, toLex (t.2.1, t.2.2))

theorem keyOfTriple_inj {a b : ℚ × String × Int}
    (h : keyOfTriple a = keyOfTriple b) : a = b := by
  unfold keyOfTriple at h
  have h1 := toLex.injective h
  have h2 : -a.1 = -b.1 := congrArg Prod.fst h1
  have h3 := toLex.injective (congrArg Prod.snd h1)
  have h4 : a.2.1 = b.2.1 := congrArg Prod.fst h3
  have h5 : a.2.2 = b.2.2 := congrArg Prod.snd h3
  have h6 : a.1 = b.1 := neg_injective h2
  exact Prod.ext h6 (Prod.ext h4 h5)

theorem tripleLess_eq_lt (a b : ℚ × String × Int) :
    tripleLess a b = decide (keyOfTriple a < keyOfTriple b) := by
  unfold tripleLess keyOfTriple
  by_cases h1 : a.1 = b.1
  · by_cases h2 : a.2.1 = b.2.1
    · simp [h1, h2, Prod.Lex.lt_iff]
    · simp [h1, h2, Prod.Lex.lt_iff]
  · have hne : ¬(-a.1 = -b.1) := fun h => h1 (neg_injective h)
    simp [h1, hne, Prod.Lex.lt_iff, gt_iff_lt, neg_lt_neg_iff]

theorem not_tripleLess_swap (key : Cand → ℚ × String × Int) :
    (fun a b => !(tripleLess (key b) (key a))) =
      fun a b => decide (keyOfTriple (key a) ≤ keyOfTriple (key b)) := by
  funext a b
  rw [tripleLess_eq_lt]
  rcases le_or_lt (keyOfTriple (key a)) (keyOfTriple (key b)) with h | h
  · simp [h, not_lt.mpr h]
  · simp [h, not_le.mpr h]

theorem mergeSort_key_sorted {α κ : Type*} [LinearOrder κ] (key : α → κ)
    (l : List α) :
    (l.mergeSort fun a b => decide (key a ≤ key b)).Pairwise
      (fun a b => key a ≤ key b) := by
  have h := @List.sorted_mergeSort _ (fun a b => decide (key a ≤ key b))
    (fun a b c hab hbc => by
      simp only [decide_eq_true_eq] at *
      exact le_trans hab hbc)
    (fun a b => by
      simp only [Bool.or_eq_true, decide_eq_true_eq]
      exact le_total (key a) (key b)) l
  exact h.imp (by simp)

/-- Two sorted lists that are permutations of each other and whose key
function is injective on their members are equal (the local-antisymmetry
variant of `List.eq_of_perm_of_sorted`). -/
theorem sorted_perm_keyinj_eq {α κ : Type*} [LinearOrder κ] (key : α → κ) :
    ∀ (l₁ l₂ : List α), l₁.Perm l₂ →
      l₁.Pairwise (fun a b => key a ≤ key b) →
      l₂.Pairwise (fun a b => key a ≤ key b) →
      (∀ a ∈ l₁, ∀ b ∈ l₁, key a = key b → a = b) →
      l₁ = l₂
  | [], l₂, hp, _, _, _ => (hp.nil_eq).symm ▸ rfl
  | a :: t₁, l₂, hp, hs₁, hs₂, hinj => by
    have ha₂ : a ∈ l₂ := hp.mem_iff.mp (by simp)
    match l₂, hs₂, hp, ha₂ with
    | b :: t₂, hs₂, hp, ha₂ =>
      have hab : a = b := by
        by_contra hne
        have hat₂ : a ∈ t₂ := by
          rcases ha₂ with _ | h
          · exact absurd rfl hne
          · assumption
        have hbt₁ : b ∈ t₁ := by
          have : b ∈ a :: t₁ := hp.symm.mem_iff.mp (by simp)
          rcases this with _ | h
          · exact absurd rfl (fun h' => hne h'.symm)
          · assumption
        have h1 : key a ≤ key b := (List.pairwise_cons.mp hs₁).1 b hbt₁
        have h2 : key b ≤ key a := (List.pairwise_cons.mp hs₂).1 a hat₂
        exact hne (hinj a (by simp) b (by simp [hbt₁]) (le_antisymm h1 h2))
      subst hab
      have hp' : t₁.Perm t₂ := hp.cons_inv
      have := sorted_perm_keyinj_eq key t₁ t₂ hp'
        (List.pairwise_cons.mp hs₁).2 (List.pairwise_cons.mp hs₂).2
        (fun x hx y hy hxy => hinj x (by simp [hx]) y (by simp [hy]) hxy)
      rw [this]

/-- Merge-sorting two permutations of the same list with an
injective-on-members key yields the same result. -/
theorem mergeSort_key_eq_of_perm {α κ : Type*} [LinearOrder κ] (key : α → κ)
    (l₁ l₂ : List α) (hp : l₁.Perm l₂)
    (hinj : ∀ a ∈ l₁, ∀ b ∈ l₁, key a = key b → a = b) :
    l₁.mergeSort (fun a b => decide (key a ≤ key b)) =
      l₂.mergeSort (fun a b => decide (key a ≤ key b)) := by
  have hp₁ := List.mergeSort_perm l₁ (fun a b => decide (key a ≤ key b))
  have hp₂ := List.mergeSort_perm l₂ (fun a b => decide (key a ≤ key b))
  apply sorted_perm_keyinj_eq key
  · exact hp₁.trans (hp.trans hp₂.symm)
  · exact mergeSort_key_sorted key l₁
  · exact mergeSort_key_sorted key l₂
  · intro a ha b hb
    exact hinj a (hp₁.mem_iff.mp ha) b (hp₁.mem_iff.mp hb)

/-! ## Pipeline lemmas -/

/-- The identity of a hit/candidate inside one index: its chunk reference. -/
def hitKey (h : ProviderHit) : String × Int :=
  (h.chunk.sourcePath, h.chunk.chunkOrdinal)

def candKey (c : Cand) : String × Int :=
  (c.chunk.sourcePath, c.chunk.chunkOrdinal)

theorem mkCands_mem {pd : String → Option Int} {fresh : String → ℚ}
    {profile : FixedProfile} {f : SearchFilters} {hits : List ProviderHit}
    {c : Cand} (hc : c ∈ mkCands pd fresh profile f hits) :
    ∃ h ∈ hits, passesFilters pd h.chunk f = true ∧
      c.chunk = h.chunk ∧ c.rawFused = h.fusedScore := by
  simp only [mkCands, List.mem_map, List.mem_filter] at hc
  obtain ⟨h, ⟨hmem, hpred⟩, rfl⟩ := hc
  simp only [Bool.and_eq_true] at hpred
  exact ⟨h, hmem, hpred.1, rfl, rfl⟩

theorem mkCands_inj {pd : String → Option Int} {fresh : String → ℚ}
    {profile : FixedProfile} {f : SearchFilters} {hits : List ProviderHit}
    (hnd : (hits.map hitKey).Nodup) :
    ∀ a ∈ mkCands pd fresh profile f hits,
      ∀ b ∈ mkCands pd fresh profile f hits, candKey a = candKey b → a = b := by
  intro a ha b hb hk
  simp only [mkCands, List.mem_map, List.mem_filter] at ha hb
  obtain ⟨h₁, ⟨hm₁, _⟩, rfl⟩ := ha
  obtain ⟨h₂, ⟨hm₂, _⟩, rfl⟩ := hb
  have : h₁ = h₂ := List.inj_on_of_nodup_map hnd hm₁ hm₂ hk
  rw [this]

theorem hasFusedOf_eq {c₁ c₂ : List Cand} (hperm : c₁.Perm c₂)
    (hsign : (∀ c ∈ c₁, 0 < c.rawFused) ∨ (∀ c ∈ c₁, c.rawFused ≤ 0)) :
    hasFusedOf c₁ = hasFusedOf c₂ := by
  match c₁, c₂, hperm with
  | [], l₂, hperm => rw [← hperm.nil_eq]
  | x :: t₁, [], hperm => exact absurd hperm.symm.nil_eq (by simp)
  | x :: t₁, y :: t₂, hperm =>
    have hy : y ∈ x :: t₁ := hperm.symm.mem_iff.mp (by simp)
    rcases hsign with hpos | hneg
    · have h1 := hpos x (by simp)
      have h2 := hpos y hy
      simp [hasFusedOf, h1, h2]
    · have h1 := hneg x (by simp)
      have h2 := hneg y hy
      simp [hasFusedOf, not_lt.mpr h1, not_lt.mpr h2]

theorem capWalk_sublist (cap topK : Nat) :
    ∀ (l : List Cand) (counts : String → Nat) (taken : Nat),
      (capWalk cap topK l counts taken).Sublist l
  | [], _, _ => by simp [capWalk]
  | c :: rest, counts, taken => by
    rw [capWalk]
    split_ifs with h1 h2
    · exact List.nil_sublist _
    · exact (capWalk_sublist cap topK rest counts taken).cons c
    · exact (capWalk_sublist cap topK rest _ _).cons₂ c

theorem capWalk_countP (cap topK : Nat) (s : String) :
    ∀ (l : List Cand) (counts : String → Nat) (taken : Nat),
      (capWalk cap topK l counts taken).countP
        (fun c => c.chunk.sourcePath == s) ≤ cap - counts s
  | [], _, _ => by simp [capWalk]
  | c :: rest, counts, taken => by
    rw [capWalk]
    split_ifs with h1 h2
    · simp
    · exact capWalk_countP cap topK s rest counts taken
    · by_cases hs : c.chunk.sourcePath = s
      · subst hs
        have hrec := capWalk_countP cap topK c.chunk.sourcePath rest
          (fun t => if t = c.chunk.sourcePath then counts t + 1 else counts t)
          (taken + 1)
        simp only [eq_self_iff_true, if_true] at hrec
        rw [List.countP_cons]
        simp only [beq_self_eq_true, if_pos]
        omega
      · have hrec := capWalk_countP cap topK s rest
          (fun t => if t = c.chunk.sourcePath then counts t + 1 else counts t)
          (taken + 1)
        have hne : ¬ s = c.chunk.sourcePath := fun h => hs h.symm
        simp only [if_neg hne] at hrec
        rw [List.countP_cons]
        have hbe : (c.chunk.sourcePath == s) = false := by
          simp [hs]
        simp only [hbe, Bool.false_eq_true, if_false]
        simpa using hrec

theorem capWalk_length (cap topK : Nat) :
    ∀ (l : List Cand) (counts : String → Nat) (taken : Nat),
      (capWalk cap topK l counts taken).length ≤ topK - taken
  | [], _, _ => by simp [capWalk]
  | c :: rest, counts, taken => by
    rw [capWalk]
    split_ifs with h1 h2
    · simp
    · exact capWalk_length cap topK rest counts taken
    · have hrec := capWalk_length cap topK rest
        (fun t => if t = c.chunk.sourcePath then counts t + 1 else counts t)
        (taken + 1)
      simp only [List.length_cons]
      omega

theorem scoreCands_chunk {hF : Bool} {mode : SearchMode} {semAvail : Bool}
    {profile : FixedProfile} {l : List Cand} {c : Cand}
    (hc : c ∈ scoreCands hF mode semAvail profile l) :
    ∃ c' ∈ l, c.chunk = c'.chunk := by
  match l, hc with
  | c0 :: rest, hc =>
    simp only [scoreCands, List.mem_map] at hc
    obtain ⟨c', hm, rfl⟩ := hc
    exact ⟨c', hm, rfl⟩

/-- Every candidate that survives the whole pipeline passed the policy
filters. -/
theorem rankedCands_passes (pd : String → Option Int) (fresh : String → ℚ)
    (profile : FixedProfile) (mode : SearchMode) (semAvail : Bool)
    (f : SearchFilters) (topK : Nat) (hits : List ProviderHit) :
    ∀ c ∈ rankedCands pd fresh profile mode semAvail f topK hits,
      passesFilters pd c.chunk f = true := by
  intro c hc
  simp only [rankedCands] at hc
  split_ifs at hc with hemp
  · simp at hc
  · have h2 := (capWalk_sublist _ _ _ _ _).mem hc
    have h3 := (List.mergeSort_perm _ _).mem_iff.mp h2
    obtain ⟨c', hc', hchunk⟩ := scoreCands_chunk h3
    have h4 := List.take_subset _ _ hc'
    have h5 := (List.mergeSort_perm _ _).mem_iff.mp h4
    obtain ⟨h, _, hp, hcc, _⟩ := mkCands_mem h5
    rw [hchunk, hcc]
    exact hp

theorem mkCands_sign {pd : String → Option Int} {fresh : String → ℚ}
    {profile : FixedProfile} {f : SearchFilters} {hits : List ProviderHit}
    (hsign : (∀ h ∈ hits, 0 < h.fusedScore) ∨ (∀ h ∈ hits, h.fusedScore ≤ 0)) :
    (∀ c ∈ mkCands pd fresh profile f hits, 0 < c.rawFused) ∨
    (∀ c ∈ mkCands pd fresh profile f hits, c.rawFused ≤ 0) := by
  rcases hsign with h | h
  · left
    intro c hc
    obtain ⟨hh, hm, _, _, hf⟩ := mkCands_mem hc
    rw [hf]; exact h hh hm
  · right
    intro c hc
    obtain ⟨hh, hm, _, _, hf⟩ := mkCands_mem hc
    rw [hf]; exact h hh hm

/-- Core of C5: the ranked output is invariant under any permutation of the
provider's hit list, provided hits carry pairwise-distinct chunk
references and the fused components are of one sign (zero for the in-repo
providers; uniformly positive for an RRF-style fused provider). -/
theorem rankedCands_det (pd : String → Option Int) (fresh : String → ℚ)
    (profile : FixedProfile) (mode : SearchMode) (semAvail : Bool)
    (f : SearchFilters) (topK : Nat) (hits₁ hits₂ : List ProviderHit)
    (hperm : hits₁.Perm hits₂)
    (hnd : (hits₁.map hitKey).Nodup)
    (hsign : (∀ h ∈ hits₁, 0 < h.fusedScore) ∨ (∀ h ∈ hits₁, h.fusedScore ≤ 0)) :
    rankedCands pd fresh profile mode semAvail f topK hits₁ =
      rankedCands pd fresh profile mode semAvail f topK hits₂ := by
  have hcperm : (mkCands pd fresh profile f hits₁).Perm
      (mkCands pd fresh profile f hits₂) := (hperm.filter _).map _
  have hF := hasFusedOf_eq hcperm (mkCands_sign hsign)
  have hlen := hcperm.length_eq
  have hemp : (mkCands pd fresh profile f hits₁).isEmpty =
      (mkCands pd fresh profile f hits₂).isEmpty := by
    by_cases hz : (mkCands pd fresh profile f hits₂).length = 0
    · rw [List.isEmpty_iff_length_eq_zero.mpr (hlen.trans hz),
        List.isEmpty_iff_length_eq_zero.mpr hz]
    · have e1 : ¬ ((mkCands pd fresh profile f hits₁).isEmpty = true) :=
        fun h => hz (hlen ▸ List.isEmpty_iff_length_eq_zero.mp h)
      have e2 : ¬ ((mkCands pd fresh profile f hits₂).isEmpty = true) :=
        fun h => hz (List.isEmpty_iff_length_eq_zero.mp h)
      rw [Bool.not_eq_true] at e1 e2
      rw [e1, e2]
  have hsorted :
      (mkCands pd fresh profile f hits₁).mergeSort (fun a b =>
        !(tripleLess
          (primTriple (hasFusedOf (mkCands pd fresh profile f hits₂)) b)
          (primTriple (hasFusedOf (mkCands pd fresh profile f hits₂)) a))) =
      (mkCands pd fresh profile f hits₂).mergeSort (fun a b =>
        !(tripleLess
          (primTriple (hasFusedOf (mkCands pd fresh profile f hits₂)) b)
          (primTriple (hasFusedOf (mkCands pd fresh profile f hits₂)) a))) := by
    rw [not_tripleLess_swap
      (primTriple (hasFusedOf (mkCands pd fresh profile f hits₂)))]
    apply mergeSort_key_eq_of_perm _ _ _ hcperm
    intro a ha b hb hk
    apply mkCands_inj hnd a ha b hb
    have h2 := keyOfTriple_inj hk
    have h3 := congrArg Prod.snd h2
    exact h3
  simp only [rankedCands]
  rw [hemp, hF, hlen, hsorted]

theorem rankedCands_sorted (pd : String → Option Int) (fresh : String → ℚ)
    (profile : FixedProfile) (mode : SearchMode) (semAvail : Bool)
    (f : SearchFilters) (topK : Nat) (hits : List ProviderHit) :
    (rankedCands pd fresh profile mode semAvail f topK hits).Pairwise
      (fun a b => keyOfTriple (finalTriple a) ≤ keyOfTriple (finalTriple b)) := by
  simp only [rankedCands]
  split_ifs with h
  · simp
  · apply List.Pairwise.sublist (capWalk_sublist _ _ _ _ _)
    rw [not_tripleLess_swap finalTriple]
    exact mergeSort_key_sorted (fun c => keyOfTriple (finalTriple c)) _

/-! ## Test fixtures (used by the witnesses) -/

def emptyFilters : SearchFilters :=
  { tags := [], tagMode := "", project := [], docType := [], dateFrom := "",
    dateTo := "", confidentialityAllow := [], allowRestricted := false }

def testChunkA : IndexedChunk :=
  { sourcePath := "notes/a.md", chunkOrdinal := 1,
    chunkLoc := { headingPath := "", startByte := 0, endByte := 5 },
    documentVersion := "v", paragraphID := "pa", title := "A", date := "",
    project := "", tags := [], confidentiality := "internal",
    docType := "note", text := "alpha", snippet := "alpha", flags := [],
    riskScore := 0 }

def testChunkB : IndexedChunk :=
  { testChunkA with sourcePath := "notes/b.md", paragraphID := "pb",
                    title := "B", text := "beta", snippet := "beta" }

def testRestrictedChunk : IndexedChunk :=
  { testChunkA with sourcePath := "secret.md",
                    confidentiality := "restricted" }

def testHitA : ProviderHit :=
  { chunk := testChunkA, lexicalScore := 2, semanticScore := 0, fusedScore := 0 }

def testHitB : ProviderHit :=
  { chunk := testChunkB, lexicalScore := 1, semanticScore := 0, fusedScore := 0 }

/-! ## C1: restricted-confidentiality filter soundness -/

/-- C1: for a chunk with `confidentiality = "restricted"` that passes every
other requested filter, `passesFilters` accepts it exactly when
`filters.allow_restricted` is set; consequently, when `allow_restricted` is
false, no such chunk ever appears among the ranked evidence candidates of
any search, whatever hit list the provider produced. -/
theorem restricted_filter_soundness (pd : String → Option Int)
    (chunk : IndexedChunk) (f : SearchFilters)
    (hconf : chunk.confidentiality = "restricted")
    (hother : passesOtherFilters pd chunk f = true) :
    passesFilters pd chunk f = f.allowRestricted ∧
    (f.allowRestricted = false →
      ∀ (fresh : String → ℚ) (profile : FixedProfile) (mode : SearchMode)
        (semAvail : Bool) (topK : Nat) (hits : List ProviderHit),
        ∀ c ∈ rankedCands pd fresh profile mode semAvail f topK hits,
          c.chunk ≠ chunk) := by
  have hfold : eqFold chunk.confidentiality "restricted" = true := by
    rw [hconf]; rfl
  constructor
  · cases har : f.allowRestricted
    · simp [passesFilters, har, hfold]
    · simp [passesFilters, har, hfold, hother]
  · intro har fresh profile mode semAvail topK hits c hc hchunk
    have hp := rankedCands_passes pd fresh profile mode semAvail f topK hits c hc
    rw [hchunk] at hp
    simp [passesFilters, har, hfold] at hp

/-- C1 witness: a concrete restricted chunk against the default filters
(`allow_restricted = false`, every other filter empty and hence passed). -/
theorem restricted_filter_soundness_witness :
    passesOtherFilters (fun _ => none) testRestrictedChunk emptyFilters = true ∧
    passesFilters (fun _ => none) testRestrictedChunk emptyFilters =
      emptyFilters.allowRestricted :=
  ⟨rfl, (restricted_filter_soundness (fun _ => none) testRestrictedChunk
    emptyFilters rfl rfl).1⟩

/-! ## C5: search determinism -/

/-- C5: for one fixed index version, the `EvidencePackFull.items` list is a
total function of the request — the provider's hybrid merge may deliver its
hits in any order (the Go map iteration order), and the result is
unchanged, provided the hits carry pairwise-distinct
`(source_path, chunk_ordinal)` references (one entry per indexed chunk) and
their fused components are of one sign (identically zero for the in-repo
providers, which only fill lexical/semantic components).  Moreover the
output is sorted by final score descending with ties broken by
`source_path` ascending then `chunk_ordinal` ascending (that is exactly the
order `keyOfTriple ∘ finalTriple` captures). -/
theorem search_determinism (pd : String → Option Int) (fresh : String → ℚ)
    (profile : FixedProfile) (mode : SearchMode) (semAvail : Bool)
    (f : SearchFilters) (topK : Nat) (hits₁ hits₂ : List ProviderHit)
    (hperm : hits₁.Perm hits₂)
    (hnd : (hits₁.map hitKey).Nodup)
    (hsign : (∀ h ∈ hits₁, 0 < h.fusedScore) ∨ (∀ h ∈ hits₁, h.fusedScore ≤ 0)) :
    evidenceItems pd fresh profile mode semAvail f topK hits₁ =
      evidenceItems pd fresh profile mode semAvail f topK hits₂ ∧
    (rankedCands pd fresh profile mode semAvail f topK hits₁).Pairwise
      (fun a b => keyOfTriple (finalTriple a) ≤ keyOfTriple (finalTriple b)) := by
  refine ⟨?_, rankedCands_sorted pd fresh profile mode semAvail f topK hits₁⟩
  unfold evidenceItems
  rw [rankedCands_det pd fresh profile mode semAvail f topK hits₁ hits₂
    hperm hnd hsign]

/-- C5 witness: two presentations of the same two-hit index, in swapped
provider order, yield the same evidence items. -/
theorem search_determinism_witness :
    evidenceItems (fun _ => none) (fun _ => 0) defaultResearch .keywordOnly
      false emptyFilters 10 [testHitA, testHitB] =
    evidenceItems (fun _ => none) (fun _ => 0) defaultResearch .keywordOnly
      false emptyFilters 10 [testHitB, testHitA] :=
  (search_determinism (fun _ => none) (fun _ => 0) defaultResearch
    .keywordOnly false emptyFilters 10 [testHitA, testHitB]
    [testHitB, testHitA] (List.Perm.swap testHitB testHitA [])
    (by decide) (.inr (by decide))).1

/-! ## C6: per-source cap -/

/-- C6: the assembled items list never contains more than
`profile.per_source_cap` entries sharing one `source_path`, and never more
than the effective `top_k` entries in total; candidates are admitted in
final sort order, skipping any candidate whose source already reached the
cap (that walk is `capWalk`, the embedding of the admission loop). -/
theorem per_source_cap_bound (pd : String → Option Int) (fresh : String → ℚ)
    (profile : FixedProfile) (mode : SearchMode) (semAvail : Bool)
    (f : SearchFilters) (topK : Nat) (hits : List ProviderHit) :
    (∀ s : String,
      (evidenceItems pd fresh profile mode semAvail f topK hits).countP
        (fun it => it.sourcePath == s) ≤ profile.perSourceCap) ∧
    (evidenceItems pd fresh profile mode semAvail f topK hits).length ≤ topK := by
  constructor
  · intro s
    unfold evidenceItems
    rw [List.countP_map]
    have hco : ((fun it => it.sourcePath == s) ∘ toEvidenceItem) =
        fun c : Cand => c.chunk.sourcePath == s := rfl
    rw [hco]
    simp only [rankedCands]
    split_ifs with h
    · simp
    · exact capWalk_countP profile.perSourceCap topK s _ (fun _ => 0) 0
  · unfold evidenceItems
    rw [List.length_map]
    simp only [rankedCands]
    split_ifs with h
    · simp
    · exact capWalk_length profile.perSourceCap topK _ (fun _ => 0) 0

/-! ## SHA-256 (Go `crypto/sha256`, FIPS 180-4) and `paragraph_id`

`buildChunksAndInfo` (service.go) computes
`paragraph_id = sha256Hex([]byte(relToKB + "\n" + norm))`.  The hash is
implemented here bit-faithfully on byte lists; strings enter as their
UTF-8 bytes. -/

def w32 (x : Nat) : Nat := x % 4294967296

def add32 (x y : Nat) : Nat := (x + y) % 4294967296

def rotr32 (n x : Nat) : Nat := w32 ((x >>> n) ||| (x <<< (32 - n)))

def bigSigma0 (x : Nat) : Nat := rotr32 2 x ^^^ rotr32 13 x ^^^ rotr32 22 x

def bigSigma1 (x : Nat) : Nat := rotr32 6 x ^^^ rotr32 11 x ^^^ rotr32 25 x

def smallSigma0 (x : Nat) : Nat := rotr32 7 x ^^^ rotr32 18 x ^^^ (x >>> 3)

def smallSigma1 (x : Nat) : Nat := rotr32 17 x ^^^ rotr32 19 x ^^^ (x >>> 10)

def chF (x y z : Nat) : Nat := (x &&& y) ^^^ ((x ^^^ 0xFFFFFFFF) &&& z)

def majF (x y z : Nat) : Nat := (x &&& y) ^^^ (x &&& z) ^^^ (y &&& z)

/-- The 64 SHA-256 round constants (decimal). -/
def sha256K : List Nat :=
  [1116352408, 1899447441, 3049323471, 3921009573, 961987163,
   1508970993, 2453635748, 2870763221, 3624381080, 310598401,
   607225278, 1426881987, 1925078388, 2162078206, 2614888103,
   3248222580, 3835390401, 4022224774, 264347078, 604807628,
   770255983, 1249150122, 1555081692, 1996064986, 2554220882,
   2821834349, 2952996808, 3210313671, 3336571891, 3584528711,
   113926993, 338241895, 666307205, 773529912, 1294757372,
   1396182291, 1695183700, 1986661051, 2177026350, 2456956037,
   2730485921, 2820302411, 3259730800, 3345764771, 3516065817,
   3600352804, 4094571909, 275423344, 430227734, 506948616,
   659060556, 883997877, 958139571, 1322822218, 1537002063,
   1747873779, 1955562222, 2024104815, 2227730452, 2361852424,
   2428436474, 2756734187, 3204031479, 3329325298]

structure Sha256State where
  a : Nat
  b : Nat
  c : Nat
  d : Nat
  e : Nat
  f : Nat
  g : Nat
  hh : Nat
  deriving Repr

def sha256H0 : Sha256State :=
  { a := 1779033703, b := 3144134277, c := 1013904242, d := 2773480762,
    e := 1359893119, f := 2600822924, g := 528734635, hh := 1541459225 }

/-- Big-endian 64-bit length suffix of the padding. -/
def be64 (x : Nat) : List Nat :=
  [x / 2 ^ 56 % 256, x / 2 ^ 48 % 256, x / 2 ^ 40 % 256, x / 2 ^ 32 % 256,
   x / 2 ^ 24 % 256, x / 2 ^ 16 % 256, x / 2 ^ 8 % 256, x % 256]

/-- SHA-256 message padding: `0x80`, zeros to 56 mod 64, 64-bit bit length. -/
def sha256Pad (msg : List Nat) : List Nat :=
  msg ++ [0x80] ++ List.replicate ((119 - msg.length % 64) % 64) 0 ++
    be64 (8 * msg.length)

/-- Big-endian 32-bit word at byte offset `i`. -/
def be32At (b : List Nat) (i : Nat) : Nat :=
  byteAt b i * 16777216 + byteAt b (i + 1) * 65536 +
    byteAt b (i + 2) * 256 + byteAt b (i + 3)

/-- The 64-entry message schedule of one 64-byte block. -/
def msgSchedule (block : List Nat) : List Nat :=
  (List.range 48).foldl
    (fun w _ =>
      let i := w.length
      w ++ [add32 (add32 (w.getD (i - 16) 0) (smallSigma0 (w.getD (i - 15) 0)))
              (add32 (w.getD (i - 7) 0) (smallSigma1 (w.getD (i - 2) 0)))])
    ((List.range 16).map fun i => be32At block (4 * i))

/-- One SHA-256 round. -/
def sha256Round (st : Sha256State) (kw : Nat × Nat) : Sha256State :=
  let t1 := add32 (add32 (add32 st.hh (bigSigma1 st.e))
    (add32 (chF st.e st.f st.g) kw.1)) kw.2
  let t2 := add32 (bigSigma0 st.a) (majF st.a st.b st.c)
  { a := add32 t1 t2, b := st.a, c := st.b, d := st.c,
    e := add32 st.d t1, f := st.e, g := st.f, hh := st.g }

/-- Compress one 64-byte block into the running state. -/
def sha256Compress (h : Sha256State) (block : List Nat) : Sha256State :=
  let final := (sha256K.zip (msgSchedule block)).foldl sha256Round h
  { a := add32 h.a final.a, b := add32 h.b final.b, c := add32 h.c final.c,
    d := add32 h.d final.d, e := add32 h.e final.e, f := add32 h.f final.f,
    g := add32 h.g final.g, hh := add32 h.hh final.hh }

/-- Split the padded message into 64-byte blocks. -/
def toBlocks (l : List Nat) : List (List Nat) :=
  match l with
  | [] => []
  | x :: rest =>
    (x :: rest).take 64 :: toBlocks (rest.drop 63)
termination_by l.length
decreasing_by
  simp only [List.length_drop]
  simp
  omega

/-- The eight 32-bit words of the SHA-256 digest of a byte string. -/
def sha256Words (msg : List Nat) : List Nat :=
  let final := (toBlocks (sha256Pad msg)).foldl sha256Compress sha256H0
  [final.a, final.b, final.c, final.d, final.e, final.f, final.g, final.hh]

def hexDigit (n : Nat) : Char :=
  if n < 10 then Char.ofNat (48 + n) else Char.ofNat (87 + n)

def byteHexChars (b : Nat) : List Char :=
  [hexDigit (b / 16 % 16), hexDigit (b % 16)]

/-- Model of `sha256Hex` (service.go): lowercase hex of the 32-byte
digest. -/
def sha256Hex (msg : List Nat) : String :=
  ⟨(((sha256Words msg).map be32).flatten.map byteHexChars).flatten⟩
where
  be32 (x : Nat) : List Nat :=
    [x / 16777216 % 256, x / 65536 % 256, x / 256 % 256, x % 256]

/-- UTF-8 encoding of one scalar value (how Go's `[]byte(s)` views a
string). -/
def utf8EncodeChar (c : Char) : List Nat :=
  let n := c.toNat
  if n < 0x80 then [n]
  else if n < 0x800 then [0xC0 ||| (n >>> 6), 0x80 ||| (n &&& 0x3F)]
  else if n < 0x10000 then
    [0xE0 ||| (n >>> 12), 0x80 ||| ((n >>> 6) &&& 0x3F), 0x80 ||| (n &&& 0x3F)]
  else
    [0xF0 ||| (n >>> 18), 0x80 ||| ((n >>> 12) &&& 0x3F),
     0x80 ||| ((n >>> 6) &&& 0x3F), 0x80 ||| (n &&& 0x3F)]

def utf8Bytes (s : String) : List Nat :=
  (s.data.map utf8EncodeChar).flatten

/-- `paragraph_id` as computed by `buildChunksAndInfo` (service.go):
`sha256Hex([]byte(relToKB + "\n" + norm))`. -/
def mkParagraphID (sourcePath normText : String) : String :=
  sha256Hex (utf8Bytes (sourcePath ++ "\n" ++ normText))

/-! ## C7: paragraph-id content-addressability -/

def stateBounded (st : Sha256State) : Prop :=
  st.a < 4294967296 ∧ st.b < 4294967296 ∧ st.c < 4294967296 ∧
  st.d < 4294967296 ∧ st.e < 4294967296 ∧ st.f < 4294967296 ∧
  st.g < 4294967296 ∧ st.hh < 4294967296

theorem compress_bounded (h : Sha256State) (block : List Nat) :
    stateBounded (sha256Compress h block) := by
  refine ⟨?_, ?_, ?_, ?_, ?_, ?_, ?_, ?_⟩ <;>
    exact Nat.mod_lt _ (by norm_num)

theorem foldl_compress_bounded (blocks : List (List Nat)) (st : Sha256State)
    (h : stateBounded st) :
    stateBounded (blocks.foldl sha256Compress st) := by
  induction blocks generalizing st with
  | nil => exact h
  | cons b rest ih =>
    rw [List.foldl_cons]
    exact ih (sha256Compress st b) (compress_bounded st b)

theorem sha256Words_bounded (msg : List Nat) :
    ∀ w ∈ sha256Words msg, w < 4294967296 := by
  intro w hw
  have hb := foldl_compress_bounded (toBlocks (sha256Pad msg)) sha256H0
    (by unfold stateBounded sha256H0; norm_num)
  simp only [sha256Words, List.mem_cons, List.not_mem_nil, or_false] at hw
  obtain ⟨b1, b2, b3, b4, b5, b6, b7, b8⟩ := hb
  rcases hw with rfl | rfl | rfl | rfl | rfl | rfl | rfl | rfl <;> assumption

/-- Pack a word list into a natural number, little-endian base `2^32`. -/
def wordsToNat : List Nat → Nat
  | [] => 0
  | w :: ws => w % 4294967296 + 4294967296 * wordsToNat ws

theorem wordsToNat_lt : ∀ l : List Nat, wordsToNat l < 4294967296 ^ l.length
  | [] => by simp [wordsToNat]
  | w :: ws => by
    have hr := wordsToNat_lt ws
    have hw : w % 4294967296 < 4294967296 := Nat.mod_lt _ (by norm_num)
    simp only [wordsToNat, List.length_cons, pow_succ]
    calc w % 4294967296 + 4294967296 * wordsToNat ws
        < 4294967296 * (wordsToNat ws + 1) := by omega
      _ ≤ 4294967296 * 4294967296 ^ ws.length :=
          Nat.mul_le_mul_left _ (by omega)
      _ = 4294967296 ^ ws.length * 4294967296 := by ring

theorem wordsToNat_inj : ∀ l₁ l₂ : List Nat, l₁.length = l₂.length →
    (∀ x ∈ l₁, x < 4294967296) → (∀ x ∈ l₂, x < 4294967296) →
    wordsToNat l₁ = wordsToNat l₂ → l₁ = l₂
  | [], [], _, _, _, _ => rfl
  | x :: xs, y :: ys, hlen, hb₁, hb₂, heq => by
    have hx : x % 4294967296 = x := Nat.mod_eq_of_lt (hb₁ x (by simp))
    have hy : y % 4294967296 = y := Nat.mod_eq_of_lt (hb₂ y (by simp))
    simp only [wordsToNat, hx, hy] at heq
    have hxy : x = y ∧ wordsToNat xs = wordsToNat ys := by
      constructor <;> omega
    have := wordsToNat_inj xs ys (by simpa using hlen)
      (fun z hz => hb₁ z (by simp [hz])) (fun z hz => hb₂ z (by simp [hz]))
      hxy.2
    rw [hxy.1, this]

/-- A string of `n` letters `a` (normalization-stable, so it is a
legitimate normalized chunk text). -/
def aStr (n : Nat) : String := ⟨List.replicate n 'a'⟩

theorem sha256Hex_congr {m₁ m₂ : List Nat}
    (h : sha256Words m₁ = sha256Words m₂) : sha256Hex m₁ = sha256Hex m₂ := by
  unfold sha256Hex
  rw [h]

/-- C7 counterexample: the second half of the claim — distinct
`(source_path, normalized_text)` pairs always produce distinct
`paragraph_id`s — is refuted by cardinality: `paragraph_id` factors through
the 256-bit SHA-256 digest, so among the infinitely many distinct pairs
`("p", "a"^n)` two must share a digest, hence a `paragraph_id`.  (No
concrete collision is computable, but the claim's universal statement is
false.) -/
theorem paragraph_id_counterexample :
    ∃ s₁ t₁ s₂ t₂ : String,
      (s₁, t₁) ≠ (s₂, t₂) ∧ mkParagraphID s₁ t₁ = mkParagraphID s₂ t₂ := by
  have hlen8 : ∀ msg : List Nat, (sha256Words msg).length = 8 := by
    intro msg
    simp [sha256Words]
  have hfin : ∀ n : ℕ,
      wordsToNat (sha256Words (utf8Bytes ("p" ++ "\n" ++ aStr n))) <
        4294967296 ^ 8 := by
    intro n
    have := wordsToNat_lt (sha256Words (utf8Bytes ("p" ++ "\n" ++ aStr n)))
    rwa [hlen8] at this
  obtain ⟨m, n, hmn, heq⟩ := Finite.exists_ne_map_eq_of_infinite
    (fun n : ℕ =>
      (⟨wordsToNat (sha256Words (utf8Bytes ("p" ++ "\n" ++ aStr n))), hfin n⟩ :
        Fin (4294967296 ^ 8)))
  have hwords : sha256Words (utf8Bytes ("p" ++ "\n" ++ aStr m)) =
      sha256Words (utf8Bytes ("p" ++ "\n" ++ aStr n)) := by
    apply wordsToNat_inj _ _ (by rw [hlen8, hlen8])
      (sha256Words_bounded _) (sha256Words_bounded _)
    exact congrArg Fin.val heq
  refine ⟨"p", aStr m, "p", aStr n, ?_, sha256Hex_congr hwords⟩
  intro hpair
  apply hmn
  have : aStr m = aStr n := (Prod.mk.injEq _ _ _ _).mp hpair |>.2
  have hdata : List.replicate m 'a' = List.replicate n 'a' :=
    congrArg String.data this
  have := congrArg List.length hdata
  simpa using this

/-- Splitting at a separator absent from both prefixes is injective. -/
theorem sep_split_inj {α : Type*} (sep : α) :
    ∀ (a₁ : List α) (a₂ : List α) (b₁ b₂ : List α), sep ∉ a₁ → sep ∉ a₂ →
      a₁ ++ sep :: b₁ = a₂ ++ sep :: b₂ → a₁ = a₂ ∧ b₁ = b₂
  | [], [], b₁, b₂, _, _, h => ⟨rfl, by simpa using h⟩
  | [], x :: r₂, b₁, b₂, _, h₂, h => by
    simp only [List.nil_append, List.cons_append, List.cons.injEq] at h
    simp [h.1] at h₂
  | x :: r₁, [], b₁, b₂, h₁, _, h => by
    simp only [List.nil_append, List.cons_append, List.cons.injEq] at h
    simp [h.1] at h₁
  | x :: r₁, y :: r₂, b₁, b₂, h₁, h₂, h => by
    simp only [List.cons_append, List.cons.injEq] at h
    have := sep_split_inj sep r₁ r₂ b₁ b₂
      (fun hm => h₁ (List.mem_cons_of_mem x hm))
      (fun hm => h₂ (List.mem_cons_of_mem y hm)) h.2
    exact ⟨by rw [h.1, this.1], this.2⟩

/-- C7 (amended): equal `(source_path, normalized_text)` pairs give equal
`paragraph_id`s; and for source paths free of newline (every path the
walker produces), distinct pairs give distinct SHA-256 *inputs*
`source_path ++ "\n" ++ text` — so distinct pairs give distinct ids
exactly when SHA-256 does not collide on those two inputs, which cannot
hold universally (see the counterexample) but has no known violation. -/
theorem paragraph_id_amended (c₁ c₂ : IndexedChunk)
    (h₁ : '\n' ∉ c₁.sourcePath.data) (h₂ : '\n' ∉ c₂.sourcePath.data) :
    (c₁.sourcePath = c₂.sourcePath → c₁.text = c₂.text →
      mkParagraphID c₁.sourcePath c₁.text = mkParagraphID c₂.sourcePath c₂.text) ∧
    ((c₁.sourcePath, c₁.text) ≠ (c₂.sourcePath, c₂.text) →
      c₁.sourcePath ++ "\n" ++ c₁.text ≠ c₂.sourcePath ++ "\n" ++ c₂.text) := by
  constructor
  · intro hs ht
    rw [hs, ht]
  · intro hne heq
    apply hne
    have hdata := congrArg String.data heq
    simp only [String.data_append, List.append_assoc] at hdata
    have hsplit := sep_split_inj '\n' c₁.sourcePath.data c₂.sourcePath.data
      c₁.text.data c₂.text.data h₁ h₂ (by simpa using hdata)
    rw [String.ext hsplit.1, String.ext hsplit.2]

/-- C7 witness: two concrete chunks with newline-free source paths. -/
theorem paragraph_id_amended_witness :
    ('\n' ∉ testChunkA.sourcePath.data) ∧
    ('\n' ∉ testChunkB.sourcePath.data) ∧
    ((testChunkA.sourcePath, testChunkA.text) ≠
        (testChunkB.sourcePath, testChunkB.text) →
      testChunkA.sourcePath ++ "\n" ++ testChunkA.text ≠
        testChunkB.sourcePath ++ "\n" ++ testChunkB.text) :=
  ⟨by decide, by decide,
    (paragraph_id_amended testChunkA testChunkB (by decide) (by decide)).2⟩

/-! ## `normalizeText` (chunker.go)

`normalizeText` is, in order: `strings.ReplaceAll(s, "\r\n", "\n")`,
`strings.TrimSpace`, `hspaceRE.ReplaceAllString(s, " ")` with
`hspaceRE = [^\S\n]+` (Go regexp `\s` is `[\t\n\f\r ]`, so the class is
`[\t\f\r ]`), `\n{3,}` → `"\n\n"`, and a final `strings.TrimSpace`.  Each
regexp replacement rewrites maximal runs left to right, which the
run-consuming recursions below implement. -/

/-- The character class of `hspaceRE = [^\S\n]` (Go regexp `\s` minus
newline): horizontal whitespace. -/
def isHSpace (c : Char) : Bool :=
  c = '\t' ∨ c = (Char.ofNat 0x0C) ∨ c = '\r' ∨ c = ' '

def isNL (c : Char) : Bool := c = '\n'

/-- `strings.ReplaceAll(s, "\r\n", "\n")` as a left-to-right scan. -/
def rmCRLF : List Char → List Char
  | [] => []
  | [c] => [c]
  | c1 :: c2 :: rest =>
    if c1 = '\r' ∧ c2 = '\n' then '\n' :: rmCRLF rest
    else c1 :: rmCRLF (c2 :: rest)

/-- `hspaceRE.ReplaceAllString(s, " ")`: each maximal run of horizontal
whitespace becomes one space. -/
def hspRepl : List Char → List Char
  | [] => []
  | c :: rest =>
    if isHSpace c then ' ' :: hspRepl (rest.dropWhile isHSpace)
    else c :: hspRepl rest
termination_by l => l.length
decreasing_by
  · simp only [List.length_cons]
    have := (List.dropWhile_sublist (l := rest) (p := isHSpace)).length_le
    omega
  · simp

/-- `regexp.MustCompile("\n{3,}").ReplaceAllString(s, "\n\n")`: each
maximal newline run of length ≥ 3 becomes exactly two newlines (a run of
length `k` is `'\n'` followed by the `takeWhile` of length `k-1`). -/
def collapseNL : List Char → List Char
  | [] => []
  | c :: rest =>
    if isNL c then
      (if 2 ≤ (rest.takeWhile isNL).length then ['\n', '\n']
       else '\n' :: rest.takeWhile isNL) ++ collapseNL (rest.dropWhile isNL)
    else c :: collapseNL rest
termination_by l => l.length
decreasing_by
  · simp only [List.length_cons]
    have := (List.dropWhile_sublist (l := rest) (p := isNL)).length_le
    omega
  · simp

/-- Embedding of `normalizeText` (chunker.go) on character lists. -/
def normalizeL (l : List Char) : List Char :=
  trimSpaceL (collapseNL (hspRepl (trimSpaceL (rmCRLF l))))

/-- Embedding of `normalizeText` (chunker.go). -/
def normalizeText (s : String) : String :=
  ⟨normalizeL s.data⟩

/-! ### Invariants of normalized text -/

/-- Every horizontal-whitespace character is a plain space (no tab,
form feed or carriage return survives the hspace replacement). -/
def allSpaceChar (l : List Char) : Prop :=
  ∀ c ∈ l, isHSpace c = true → c = ' '

/-- No two adjacent horizontal-whitespace characters. -/
def noHH (a b : Char) : Prop :=
  ¬(isHSpace a = true ∧ isHSpace b = true)

/-- No three consecutive newlines (sliding-window form). -/
def okNL : List Char → Bool
  | c1 :: c2 :: c3 :: rest =>
    !(isNL c1 && isNL c2 && isNL c3) && okNL (c2 :: c3 :: rest)
  | _ => true

/-- No three consecutive newlines (infix form). -/
def noNL3 (l : List Char) : Prop :=
  ¬ (['\n', '\n', '\n'] <:+: l)

/-! ### Helper lemmas for C9 -/

theorem dropWhile_head_not {p : Char → Bool} :
    ∀ {l : List Char} {c : Char}, (l.dropWhile p).head? = some c → p c = false
  | [], c, h => by simp [List.dropWhile] at h
  | x :: rest, c, h => by
    by_cases hp : p x
    · rw [List.dropWhile_cons_of_pos hp] at h
      exact dropWhile_head_not h
    · rw [List.dropWhile_cons_of_neg hp] at h
      simp only [List.head?_cons, Option.some.injEq] at h
      rw [← h]
      exact Bool.of_not_eq_true hp

theorem dropWhile_id {p : Char → Bool} {l : List Char}
    (h : ∀ c, l.head? = some c → p c = false) : l.dropWhile p = l := by
  cases l with
  | nil => rfl
  | cons x rest =>
    exact List.dropWhile_cons_of_neg (by simp [h x rfl])

theorem dropTrailing_prefixOf (p : Char → Bool) (l : List Char) :
    dropTrailing p l <+: l := by
  obtain ⟨t, ht⟩ := List.dropWhile_suffix (l := l.reverse) p
  refine ⟨t.reverse, ?_⟩
  unfold dropTrailing
  rw [← List.reverse_append, ht, List.reverse_reverse]

theorem trimSpaceL_infixOf (l : List Char) : trimSpaceL l <:+: l :=
  ((dropTrailing_prefixOf goIsSpace _).isInfix).trans
    ((List.dropWhile_suffix goIsSpace).isInfix)

theorem prefix_head_eq {l₁ l₂ : List Char} {c : Char} (hp : l₁ <+: l₂)
    (h : l₁.head? = some c) : l₂.head? = some c := by
  obtain ⟨t, rfl⟩ := hp
  cases l₁ with
  | nil => simp at h
  | cons x r => simpa using h

theorem trimSpaceL_head {l : List Char} {c : Char}
    (h : (trimSpaceL l).head? = some c) : goIsSpace c = false :=
  dropWhile_head_not (prefix_head_eq (dropTrailing_prefixOf goIsSpace _) h)

theorem trimSpaceL_last {l : List Char} {c : Char}
    (h : (trimSpaceL l).getLast? = some c) : goIsSpace c = false := by
  unfold trimSpaceL dropTrailing at h
  rw [List.getLast?_reverse] at h
  exact dropWhile_head_not h

theorem trimSpaceL_id {l : List Char}
    (hh : ∀ c, l.head? = some c → goIsSpace c = false)
    (hl : ∀ c, l.getLast? = some c → goIsSpace c = false) :
    trimSpaceL l = l := by
  unfold trimSpaceL dropTrailing
  rw [dropWhile_id hh, dropWhile_id (by
    intro c hc
    rw [List.head?_reverse] at hc
    exact hl c hc), List.reverse_reverse]

theorem rmCRLF_id : ∀ {l : List Char}, (∀ c ∈ l, c ≠ '\r') → rmCRLF l = l
  | [], _ => rfl
  | [c], _ => rfl
  | c1 :: c2 :: rest, h => by
    rw [rmCRLF]
    rw [if_neg (by
      intro hc
      exact h c1 (by simp) hc.1)]
    rw [rmCRLF_id (fun c hc => h c (by simp [hc]))]

theorem hspRepl_id : ∀ {l : List Char}, allSpaceChar l →
    l.Chain' noHH → hspRepl l = l := by
  intro l
  induction l using hspRepl.induct with
  | case1 => intro _ _; rw [hspRepl]
  | case2 c rest hc ih =>
    intro hall hchain
    have hcsp : c = ' ' := hall c (by simp) hc
    have hdrop : rest.dropWhile isHSpace = rest := by
      apply dropWhile_id
      intro x hx
      cases rest with
      | nil => simp at hx
      | cons r0 r' =>
        simp only [List.head?_cons, Option.some.injEq] at hx
        have hrel := List.chain'_cons.mp hchain |>.1
        subst hx
        by_contra hb
        exact hrel ⟨hc, Bool.of_not_eq_false (by simpa using hb)⟩
    rw [hspRepl, if_pos hc, hdrop, hcsp]
    rw [hdrop] at ih
    rw [ih (fun x hx hsp => hall x (by simp [hx]) hsp)
      (List.chain'_cons'.mp hchain).2]
  | case3 c rest hc ih =>
    intro hall hchain
    rw [hspRepl, if_neg hc]
    rw [ih (fun x hx hsp => hall x (by simp [hx]) hsp)
      (List.chain'_cons'.mp hchain).2]

theorem okNL_iff_noNL3 : ∀ l : List Char, okNL l = true ↔ noNL3 l := by
  intro l
  match l with
  | [] =>
    simp only [okNL, noNL3, true_iff]
    intro h
    have := h.length_le
    simp at this
  | [c] =>
    simp only [okNL, noNL3, true_iff]
    intro h
    have := h.length_le
    simp at this
  | [c1, c2] =>
    simp only [okNL, noNL3, true_iff]
    intro h
    have := h.length_le
    simp at this
  | c1 :: c2 :: c3 :: rest =>
    have ih := okNL_iff_noNL3 (c2 :: c3 :: rest)
    rw [okNL]
    constructor
    · intro h
      simp only [Bool.and_eq_true, Bool.not_eq_true'] at h
      intro hbad
      rcases List.infix_cons_iff.mp hbad with hpre | hinf
      · rw [List.cons_prefix_cons] at hpre
        obtain ⟨e1, hpre⟩ := hpre
        rw [List.cons_prefix_cons] at hpre
        obtain ⟨e2, hpre⟩ := hpre
        rw [List.cons_prefix_cons] at hpre
        obtain ⟨e3, _⟩ := hpre
        simp [isNL, e1.symm, e2.symm, e3.symm] at h
      · exact (ih.mp h.2) hinf
    · intro h
      simp only [Bool.and_eq_true, Bool.not_eq_true']
      constructor
      · by_contra hb
        simp only [Bool.not_eq_false, Bool.and_eq_true, decide_eq_true_eq,
          isNL] at hb
        exact h (List.infix_cons_iff.mpr (Or.inl (by
          rw [hb.1.1, hb.1.2, hb.2]
          exact ⟨rest, rfl⟩)))
      · exact ih.mpr (fun hinf => h (List.infix_cons_iff.mpr (Or.inr hinf)))

theorem okNL_mono {l₁ l₂ : List Char} (h : l₁ <:+: l₂)
    (hok : okNL l₂ = true) : okNL l₁ = true :=
  (okNL_iff_noNL3 l₁).mpr fun hbad => (okNL_iff_noNL3 l₂).mp hok (hbad.trans h)

theorem okNL_cons_ne {c : Char} (l : List Char) (hc : c ≠ '\n')
    (h : okNL l = true) : okNL (c :: l) = true := by
  match l with
  | [] => simp [okNL]
  | [x] => simp [okNL]
  | x :: y :: r =>
    rw [okNL, Bool.and_eq_true]
    exact ⟨by simp [isNL, hc], h⟩

theorem okNL_cons_nl (l : List Char)
    (hh : ∀ x, l.head? = some x → x ≠ '\n')
    (h : okNL l = true) : okNL ('\n' :: l) = true := by
  match l with
  | [] => simp [okNL]
  | [x] => simp [okNL]
  | x :: y :: r =>
    rw [okNL, Bool.and_eq_true]
    exact ⟨by simp [isNL, hh x rfl], h⟩

theorem okNL_two_nl (l : List Char)
    (hh : ∀ x, l.head? = some x → x ≠ '\n')
    (h : okNL l = true) : okNL ('\n' :: '\n' :: l) = true := by
  match l with
  | [] => simp [okNL]
  | x :: r =>
    rw [okNL, Bool.and_eq_true]
    refine ⟨by simp [isNL, hh x rfl], ?_⟩
    exact okNL_cons_nl (x :: r) hh h

theorem collapseNL_head : ∀ l : List Char, (collapseNL l).head? = l.head?
  | [] => by simp [collapseNL]
  | c :: rest => by
    rw [collapseNL]
    by_cases hc : isNL c
    · rw [if_pos hc]
      have hc' : c = '\n' := by simpa [isNL] using hc
      by_cases h2 : 2 ≤ (rest.takeWhile isNL).length
      · simp [h2, hc']
      · simp [h2, hc']
    · rw [if_neg hc]
      simp

theorem hspRepl_allSpace : ∀ l : List Char, allSpaceChar (hspRepl l) := by
  intro l
  induction l using hspRepl.induct with
  | case1 => intro c hc; rw [hspRepl] at hc; simp at hc
  | case2 c rest hc ih =>
    intro x hx hsp
    rw [hspRepl, if_pos hc] at hx
    rcases List.mem_cons.mp hx with rfl | hx
    · rfl
    · exact ih x hx hsp
  | case3 c rest hc ih =>
    intro x hx hsp
    rw [hspRepl, if_neg hc] at hx
    rcases List.mem_cons.mp hx with rfl | hx
    · exact absurd hsp (by simpa using hc)
    · exact ih x hx hsp

theorem hspRepl_head (l : List Char) :
    (hspRepl l).head? = l.head?.map fun c => if isHSpace c then ' ' else c := by
  cases l with
  | nil => rw [hspRepl]; rfl
  | cons c rest =>
    rw [hspRepl]
    by_cases hc : isHSpace c
    · rw [if_pos hc]; simp [hc]
    · rw [if_neg hc]; simp [hc]

theorem hspRepl_chain : ∀ l : List Char, (hspRepl l).Chain' noHH := by
  intro l
  induction l using hspRepl.induct with
  | case1 => rw [hspRepl]; simp
  | case2 c rest hc ih =>
    rw [hspRepl, if_pos hc]
    rw [List.chain'_cons']
    refine ⟨?_, ih⟩
    intro y hy
    rw [hspRepl_head, Option.mem_def] at hy
    cases hdw : (rest.dropWhile isHSpace).head? with
    | none => rw [hdw] at hy; simp at hy
    | some x =>
      rw [hdw] at hy
      have hx := dropWhile_head_not hdw
      have hxy : y = x := by
        simp [hx] at hy
        first
        | exact hy
        | exact hy.symm
      intro hcon
      rw [hxy] at hcon
      exact absurd hcon.2 (by simp [hx])
  | case3 c rest hc ih =>
    rw [hspRepl, if_neg hc]
    rw [List.chain'_cons']
    refine ⟨?_, ih⟩
    intro y _ hcon
    exact hc hcon.1

theorem chain'_nl_run : ∀ t : List Char, (∀ x ∈ t, x = '\n') →
    t.Chain' noHH := by
  intro t
  induction t with
  | nil => simp
  | cons x r ih =>
    intro hall
    rw [List.chain'_cons']
    refine ⟨?_, ih fun z hz => hall z (by simp [hz])⟩
    intro y _ hcon
    have := hall x (by simp)
    rw [this] at hcon
    simp [isHSpace] at hcon

theorem nlBlock_all_nl (rest : List Char) :
    ∀ x ∈ (if 2 ≤ (rest.takeWhile isNL).length then ['\n', '\n']
      else '\n' :: rest.takeWhile isNL), x = '\n' := by
  intro x hx
  by_cases h2 : 2 ≤ (rest.takeWhile isNL).length
  · rw [if_pos h2] at hx
    rcases List.mem_cons.mp hx with rfl | hx
    · rfl
    · rcases List.mem_cons.mp hx with rfl | hx
      · rfl
      · simp at hx
  · rw [if_neg h2] at hx
    rcases List.mem_cons.mp hx with rfl | hx
    · rfl
    · simpa [isNL] using List.mem_takeWhile_imp hx

theorem collapseNL_mem : ∀ l : List Char, ∀ c ∈ collapseNL l, c ∈ l ∨ c = '\n' := by
  intro l
  induction l using collapseNL.induct with
  | case1 => intro c hc; rw [collapseNL] at hc; simp at hc
  | case2 c rest hc ih =>
    intro x hx
    rw [collapseNL, if_pos hc] at hx
    rw [List.mem_append] at hx
    rcases hx with hblk | hrec
    · right
      exact nlBlock_all_nl rest x hblk
    · rcases ih x hrec with hmem | hnl
      · exact Or.inl (List.mem_cons_of_mem c
          ((List.dropWhile_sublist isNL).subset hmem))
      · exact Or.inr hnl
  | case3 c rest hc ih =>
    intro x hx
    rw [collapseNL, if_neg hc] at hx
    rcases List.mem_cons.mp hx with rfl | hx
    · exact Or.inl (by simp)
    · rcases ih x hx with hmem | hnl
      · exact Or.inl (List.mem_cons_of_mem c hmem)
      · exact Or.inr hnl

theorem collapseNL_allSpace {l : List Char} (h : allSpaceChar l) :
    allSpaceChar (collapseNL l) := by
  intro c hc hsp
  rcases collapseNL_mem l c hc with hmem | hnl
  · exact h c hmem hsp
  · rw [hnl] at hsp
    simp [isHSpace] at hsp

theorem collapseNL_chain : ∀ l : List Char, l.Chain' noHH →
    (collapseNL l).Chain' noHH := by
  intro l
  induction l using collapseNL.induct with
  | case1 => intro _; rw [collapseNL]; simp
  | case2 c rest hc ih =>
    intro hchain
    rw [collapseNL, if_pos hc]
    rw [List.chain'_append]
    refine ⟨chain'_nl_run _ (nlBlock_all_nl rest), ?_, ?_⟩
    · exact ih <| List.Chain'.infix hchain.tail (List.dropWhile_suffix isNL).isInfix
    · intro x hx y _
      have hxnl : x = '\n' :=
        nlBlock_all_nl rest x (List.mem_of_mem_getLast? hx)
      intro hcon
      rw [hxnl] at hcon
      simp [isHSpace] at hcon
  | case3 c rest hc ih =>
    intro hchain
    rw [collapseNL, if_neg hc]
    rw [List.chain'_cons']
    refine ⟨?_, ih hchain.tail⟩
    intro y hy
    rw [collapseNL_head, Option.mem_def] at hy
    have := (List.chain'_cons'.mp hchain).1
    exact this y hy

theorem collapseNL_okNL : ∀ l : List Char, okNL (collapseNL l) = true := by
  intro l
  induction l using collapseNL.induct with
  | case1 => rw [collapseNL]; simp [okNL]
  | case2 c rest hc ih =>
    rw [collapseNL, if_pos hc]
    have hh : ∀ x, (collapseNL (rest.dropWhile isNL)).head? = some x →
        x ≠ '\n' := by
      intro x hx
      rw [collapseNL_head] at hx
      have := dropWhile_head_not hx
      simpa [isNL] using this
    by_cases h2 : 2 ≤ (rest.takeWhile isNL).length
    · rw [if_pos h2]
      exact okNL_two_nl _ hh ih
    · rw [if_neg h2]
      match ht : rest.takeWhile isNL with
      | [] =>
        exact okNL_cons_nl _ hh ih
      | [x] =>
        have hxmem : x ∈ rest.takeWhile isNL := by rw [ht]; simp
        have hxnl : x = '\n' := by
          simpa [isNL] using List.mem_takeWhile_imp hxmem
        rw [hxnl]
        exact okNL_two_nl _ hh ih
      | x :: y :: r =>
        rw [ht] at h2
        simp at h2
  | case3 c rest hc ih =>
    rw [collapseNL, if_neg hc]
    exact okNL_cons_ne _ (by simpa [isNL] using hc) ih

theorem okNL_run_short {rest : List Char} (h : okNL ('\n' :: rest) = true) :
    ¬ 2 ≤ (rest.takeWhile isNL).length := by
  intro hge
  match rest, h, hge with
  | [], _, hge => simp at hge
  | [x], _, hge =>
    by_cases hx : isNL x
    · rw [List.takeWhile_cons_of_pos hx] at hge
      simp at hge
    · rw [List.takeWhile_cons_of_neg hx] at hge
      simp at hge
  | x :: y :: r, h, hge =>
    by_cases hx : isNL x
    · by_cases hy : isNL y
      · have hx' : x = '\n' := by simpa [isNL] using hx
        have hy' : y = '\n' := by simpa [isNL] using hy
        rw [hx', hy'] at h
        rw [okNL] at h
        simp [isNL] at h
      · rw [List.takeWhile_cons_of_pos hx,
          List.takeWhile_cons_of_neg hy] at hge
        simp at hge
    · rw [List.takeWhile_cons_of_neg hx] at hge
      simp at hge

theorem collapseNL_id : ∀ {l : List Char}, okNL l = true → collapseNL l = l := by
  intro l
  induction l using collapseNL.induct with
  | case1 => intro _; rw [collapseNL]
  | case2 c rest hc ih =>
    intro h
    have hc' : c = '\n' := by simpa [isNL] using hc
    have h2 : ¬ 2 ≤ (rest.takeWhile isNL).length :=
      okNL_run_short (hc' ▸ h)
    rw [collapseNL, if_pos hc, if_neg h2]
    rw [ih (okNL_mono
      ((List.dropWhile_suffix isNL).isInfix.trans
        (List.suffix_cons c rest).isInfix) h)]
    rw [hc', List.cons_append, List.takeWhile_append_dropWhile]
  | case3 c rest hc ih =>
    intro h
    rw [collapseNL, if_neg hc]
    rw [ih (okNL_mono (List.suffix_cons c rest).isInfix h)]

theorem allSpaceChar_subset {l₁ l₂ : List Char} (h : l₁ ⊆ l₂)
    (ha : allSpaceChar l₂) : allSpaceChar l₁ :=
  fun c hc => ha c (h hc)

/-! ## C9: `normalizeText` idempotence -/

theorem normalizeL_idem (l : List Char) :
    normalizeL (normalizeL l) = normalizeL l := by
  set l3 := hspRepl (trimSpaceL (rmCRLF l)) with hl3
  set l4 := collapseNL l3 with hl4
  have hP1 : allSpaceChar (trimSpaceL l4) :=
    allSpaceChar_subset (trimSpaceL_infixOf l4).sublist.subset
      (collapseNL_allSpace (hspRepl_allSpace _))
  have hP2 : (trimSpaceL l4).Chain' noHH :=
     List.Chain'.infix (collapseNL_chain l3 (hspRepl_chain _))
      (trimSpaceL_infixOf l4)
  have hP3 : okNL (trimSpaceL l4) = true :=
    okNL_mono (trimSpaceL_infixOf l4) (collapseNL_okNL l3)
  have hnoCR : ∀ c ∈ trimSpaceL l4, c ≠ '\r' := by
    intro c hc hcr
    subst hcr
    exact absurd (hP1 '\r' hc (by decide)) (by decide)
  have htr : trimSpaceL (trimSpaceL l4) = trimSpaceL l4 :=
    trimSpaceL_id (fun c h => trimSpaceL_head h) (fun c h => trimSpaceL_last h)
  show trimSpaceL (collapseNL (hspRepl (trimSpaceL (rmCRLF (trimSpaceL l4))))) =
    trimSpaceL l4
  rw [rmCRLF_id hnoCR, htr, hspRepl_id hP1 hP2, collapseNL_id hP3, htr]

/-- C9: `normalizeText` is idempotent — re-normalizing already-normalized
chunk text returns it unchanged, so the stored text and the
`paragraph_id` fingerprint derived from it are stable across rebuilds. -/
theorem normalize_text_idempotent :
    ∀ s : String, normalizeText (normalizeText s) = normalizeText s := by
  intro s
  unfold normalizeText
  exact congrArg String.mk (normalizeL_idem s.data)

/-! ## C8: doc-type derivation -/

/-- C8 counterexample: the code classifies by bare suffix, so
`docs/securitypolicy.md` — whose final path component is
`securitypolicy.md`, not `policy.md` — maps to `policy`, while the claim
says every such path maps to `note`. -/
theorem classify_doc_type_counterexample :
    classifyDocType "docs/securitypolicy.md" = "policy" ∧
    claimDocType "docs/securitypolicy.md" = "note" ∧
    classifyDocType "docs/securitypolicy.md" ≠
      claimDocType "docs/securitypolicy.md" := by
  refine ⟨by decide, by decide, by decide⟩

/-- C8 (amended): `doc_type` is derived from the KB-relative
slash-normalized path by, in order: prefix `notes/` → note, `papers/` →
paper, `templates/` → template, then lowercased suffix `policy.md` →
policy (any path ending in those letters, not only a `policy.md` file),
suffix `glossary.md` → glossary, otherwise note. -/
theorem classify_doc_type_amended :
    ∀ relPath : String, classifyDocType relPath = amendedDocType relPath :=
  fun _ => rfl

/-! ## C3: candidate limit -/

/-- C3 counterexample: with the `default_research` profile
(`bm25_top_n = 120`) and a request `top_k = 20` (so `top_k × 4 = 80`), the
code passes candidate limit 120 to the provider, while the claim's formula
`clamp(max(120, 80), 200, 2000)` yields 200 — in particular the computed
limit is below 200. -/
theorem candidate_limit_counterexample :
    candidateLimit defaultResearch.bm25TopN (clampTopK 20) = 120 ∧
    claimCandidateLimit defaultResearch.bm25TopN (clampTopK 20) = 200 ∧
    candidateLimit defaultResearch.bm25TopN (clampTopK 20) < 200 := by
  refine ⟨by decide, by decide, by decide⟩

/-- C3 (amended): the candidate limit passed to the provider equals
`min(2000, max(b, top_k × 4))` where `b` is `profile.bm25_top_n` when
positive and 200 otherwise; it is NOT clamped below to 200 in general
(see the counterexample), but it is at least `min(bm25_top_n, top_k × 4)`
and at least 4 for the fixed profiles. -/
theorem candidate_limit_amended :
    ∀ bm25TopN topK : Int,
      candidateLimit bm25TopN topK =
        min 2000 (max (if bm25TopN ≤ 0 then 200 else bm25TopN) (topK * 4)) := by
  intro b t
  simp only [candidateLimit]
  split_ifs <;> omega

end Picoclaw
